import Mathlib

/-!
# ugc-tracker: the de-duplication and delivery pipeline of `index.js`

A shallow embedding of `index.js`.

* JavaScript strings are lists of characters (`Str`); the text of a file is the
  string `fs.readFileSync(path, 'utf-8')` returns.
* The two files the program touches, `items.txt` and `sent_items.txt`, are the
  two fields of `Disk`; a file is absent, present and not accessible to the
  process (reading and writing throw), present and read-only (reading works,
  writing and appending throw), or present, readable and writable.
* A thrown JavaScript exception is `Except.error`, carrying the machine state
  at the throw, so that what happened before the throw stays observable.
* The remote services (catalog listing, item details, thumbnails, the webhook)
  are a parameter `World` of one `processItems` cycle: what each call answers.
* A JSON value whose conversion to a string throws (an object such as
  `{"toString": 1}`) is `JsVal.unprintable`; rendering it in a template
  literal outside a `try` makes `sendDiscordWebhook`, and with it the cycle,
  throw.
* The network calls and ledger writes a cycle performs are recorded in
  `Machine.log`, in program order.
-/

namespace UgcTracker

/-! ## Strings -/

/-- A JavaScript string. -/
abbrev Str := List Char

/-- The code points `String.prototype.trim` strips: ECMAScript WhiteSpace and
LineTerminator. -/
def isJsWhitespace (c : Char) : Bool :=
  let n := c.toNat
  n == 0x09 || n == 0x0A || n == 0x0B || n == 0x0C || n == 0x0D || n == 0x20 ||
  n == 0xA0 || n == 0x1680 || (0x2000 ≤ n && n ≤ 0x200A) || n == 0x2028 ||
  n == 0x2029 || n == 0x202F || n == 0x205F || n == 0x3000 || n == 0xFEFF

/-- The method `s.trim()`. -/
def trim (s : Str) : Str :=
  ((s.dropWhile isJsWhitespace).reverse.dropWhile isJsWhitespace).reverse

/-- The callback `id => id.trim()` of `filter`: a string is kept when its trim
is truthy, that is non-empty. -/
def trimTruthy (s : Str) : Bool := !(trim s).isEmpty

/-- Puts a character in front of the first piece of a split. -/
def consFirst (c : Char) : List Str → List Str
  | [] => [[c]]
  | l :: ls => (c :: l) :: ls

/-- The call `s.split('\n')`. -/
def splitNL : Str → List Str
  | [] => [[]]
  | c :: cs => if c = '\n' then [] :: splitNL cs else consFirst c (splitNL cs)

/-- The call `xs.join('\n')`. -/
def joinNL : List Str → Str
  | [] => []
  | [a] => a
  | a :: b :: rest => a ++ '\n' :: joinNL (b :: rest)

/-- The expression `text.split('\n').filter(id => id.trim())`: the non-blank
lines of a text, in file order. -/
def entries (text : Str) : List Str := (splitNL text).filter trimTruthy

/-- The method `set.add(x)` on a `Set` kept in insertion order. -/
def setAdd (acc : List Str) (x : Str) : List Str :=
  if x ∈ acc then acc else acc ++ [x]

/-- The constructor `new Set(xs)`, listed in iteration (insertion) order. -/
def newSet (xs : List Str) : List Str := xs.foldl setAdd []


/-! ## Files -/

/-- The state of one path on disk: absent; present but not accessible (reading
and writing throw); present and readable but not writable; present, readable
and writable. -/
inductive File where
  | absent
  | locked
  | readOnly (s : Str)
  | text (s : Str)
  deriving DecidableEq, Repr

/-- The two paths of the program. -/
inductive Path where
  | itemsFilePath
  | sentItemsFilePath
  deriving DecidableEq, Repr

/-- The files `items.txt` and `sent_items.txt`. -/
structure Disk where
  items : File
  sent : File
  deriving DecidableEq, Repr

/-- The file at a path. -/
def Disk.get (d : Disk) : Path → File
  | .itemsFilePath => d.items
  | .sentItemsFilePath => d.sent

/-- The disk with the file at a path replaced. -/
def Disk.set (d : Disk) (p : Path) (f : File) : Disk :=
  match p with
  | .itemsFilePath => { d with items := f }
  | .sentItemsFilePath => { d with sent := f }

/-- What the program did to the outside world, in program order. -/
inductive Event where
  /-- The call `fetchAccessoryDetails(id)`; `found` when it returned a truthy detail. -/
  | detail (id : Str) (found : Bool)
  /-- The call `sendDiscordWebhook(details)` made for the pending `id`, and what it returned. -/
  | webhook (id : Str) (success : Bool)
  /-- The commit `fs.appendFileSync(sentItemsFilePath, id + '\n')`. -/
  | commit (id : Str)
  /-- The rewrite of `sent_items.txt` by `limitSentItems`: the entries it read and the entries it kept. -/
  | trimmed (before kept : List Str)
  deriving DecidableEq, Repr

/-- The machine state: the disk and the record of events so far. -/
structure Machine where
  disk : Disk
  log : List Event
  deriving DecidableEq, Repr

/-- A computation that may throw; a throw carries the state it happened in. -/
abbrev Run (α : Type) := Except Machine α

/-- The call `fs.existsSync(path)`. -/
def existsSync (p : Path) (m : Machine) : Bool :=
  match m.disk.get p with
  | .absent => false
  | _ => true

/-- The call `fs.readFileSync(path, 'utf-8')`: throws unless the file is there
and readable. -/
def readFileSync (p : Path) (m : Machine) : Run Str :=
  match m.disk.get p with
  | .text s => .ok s
  | .readOnly s => .ok s
  | _ => .error m

/-- The call `fs.writeFileSync(path, data, 'utf-8')`: creates or replaces the
file; throws when the file is there and not writable. -/
def writeFileSync (p : Path) (data : Str) (m : Machine) : Run Machine :=
  match m.disk.get p with
  | .locked => .error m
  | .readOnly _ => .error m
  | _ => .ok { m with disk := m.disk.set p (.text data) }

/-- The call `fs.appendFileSync(path, data, 'utf-8')`: creates the file when it
is absent; throws when the file is there and not writable. -/
def appendFileSync (p : Path) (data : Str) (m : Machine) : Run Machine :=
  match m.disk.get p with
  | .locked => .error m
  | .readOnly _ => .error m
  | .absent => .ok { m with disk := m.disk.set p (.text data) }
  | .text s => .ok { m with disk := m.disk.set p (.text (s ++ data)) }

/-- Adds an event to the record. -/
def Machine.emit (m : Machine) (e : Event) : Machine :=
  { m with log := m.log ++ [e] }

/-! ## The program -/

/-- The helper `readIdsFromFile(filePath)` (lines 12-17): creates the file when
it does not exist, then returns the set of its non-blank lines. -/
def readIdsFromFile (p : Path) (m : Machine) : Run (List Str × Machine) := do
  let m1 ← if existsSync p m then pure m else writeFileSync p [] m
  let s ← readFileSync p m1
  pure (newSet (entries s), m1)

/-- The helper `limitSentItems()` (lines 20-29): when `sent_items.txt` exists
and holds more than 150 entries, rewrites it with the last 150. -/
def limitSentItems (m : Machine) : Run Machine :=
  if existsSync .sentItemsFilePath m then do
    let s ← readFileSync .sentItemsFilePath m
    let sentItems := entries s
    if sentItems.length > 150 then do
      let kept := sentItems.drop (sentItems.length - 150)
      let m1 ← writeFileSync .sentItemsFilePath (joinNL kept ++ ['\n']) m
      pure (m1.emit (.trimmed sentItems kept))
    else pure m
  else pure m

/-! ## The remote services -/

/-- A JSON value as the program observes it: a string; a value that is not a
string, given by its rendering in a template literal and its truthiness; or an
object or array whose conversion to a string throws a `TypeError` (such as
`{"toString": 1}`). -/
inductive JsVal where
  | str (s : Str)
  | other (shown : Str) (truthy : Bool)
  | unprintable
  deriving DecidableEq, Repr

/-- The rendering of a value inside a template literal; `none` when the
conversion throws. -/
def JsVal.render : JsVal → Option Str
  | .str s => some s
  | .other shown _ => some shown
  | .unprintable => none

/-- Truthiness: a string is truthy when it is not empty, an object always. -/
def JsVal.truthy : JsVal → Bool
  | .str s => !s.isEmpty
  | .other _ t => t
  | .unprintable => true

/-- The properties of an item detail the program reads. -/
structure Accessory where
  id : JsVal
  name : JsVal
  description : JsVal
  isPurchasable : JsVal
  price : JsVal
  creatorType : JsVal
  creatorTargetId : JsVal
  creatorName : JsVal
  deriving DecidableEq, Repr

/-- What the remote services answer during one `processItems` cycle. The
per-item answers are indexed by the pending identifier being processed. -/
structure World where
  /-- The catalog listing: `none` when the request, the JSON parse or the
  extraction of the ids throws, else the ids as `join` renders them. -/
  listing : Option (List Str)
  /-- The detail request: `none` when it throws, is not `ok`, or its body is
  falsy. -/
  details : Str → Option Accessory
  /-- The thumbnail request: `none` when it throws, else the `imageUrl` read. -/
  thumbnail : Str → Option JsVal
  /-- Whether the webhook POST got through with an `ok` status. -/
  webhookOk : Str → Bool

/-- One field of a Discord embed. -/
structure EmbedField where
  name : Str
  value : Str
  inline : Bool
  deriving DecidableEq, Repr

/-- The embed `sendDiscordWebhook` posts. -/
structure Embed where
  title : JsVal
  url : Str
  description : JsVal
  thumbnailUrl : JsVal
  fields : List EmbedField
  deriving DecidableEq, Repr

/-- The function `fetchAssetIds()` (lines 32-43): on success writes the listed
ids to `items.txt`; whatever throws inside the `try` is caught and logged. -/
def fetchAssetIds (w : World) (m : Machine) : Machine :=
  match w.listing with
  | none => m
  | some ids =>
    match writeFileSync .itemsFilePath (joinNL ids) m with
    | .ok m1 => m1
    | .error _ => m

/-- The function `filterItems()` (lines 46-52). -/
def filterItems (m : Machine) : Run Machine := do
  let (sentItems, m1) ← readIdsFromFile .sentItemsFilePath m
  let (itemIds, m2) ← readIdsFromFile .itemsFilePath m1
  let itemIds := newSet (itemIds.filter (fun id => !(decide (id ∈ sentItems))))
  writeFileSync .itemsFilePath (joinNL itemIds) m2

/-- The function `fetchAccessoryDetails(id)` (lines 55-64): the detail, or
`null`. -/
def fetchAccessoryDetails (w : World) (id : Str) : Option Accessory := w.details id

/-- The function `fetchThumbnailUrl(assetId)` (lines 67-76), called while the
pending identifier `id` is processed: the image url, or the empty string when
something throws inside its `try`, the rendering of `assetId` included. -/
def fetchThumbnailUrl (w : World) (id : Str) (assetId : JsVal) : JsVal :=
  match assetId.render with
  | none => .str []
  | some _ =>
    match w.thumbnail id with
    | none => .str []
    | some v => if v.truthy then v else .str []

/-- The `price` label of `sendDiscordWebhook` (line 81); `none` when rendering
the price throws. -/
def priceLabel (accessory : Accessory) : Option Str :=
  if accessory.isPurchasable.truthy then
    accessory.price.render.map (fun p => "<:robux:1270902229552992286>".toList ++ p)
  else some "<:robux:1270902229552992286>Offsale".toList

/-- The `assetUrl` of `sendDiscordWebhook` (line 83); `none` when rendering
the id throws. -/
def assetUrl (accessory : Accessory) : Option Str :=
  accessory.id.render.map
    (fun i => "https://www.roblox.com/catalog/".toList ++ i ++ "/".toList)

/-- The `creatorUrl` of `sendDiscordWebhook` (lines 86-88); `none` when
rendering the creator target id throws. -/
def creatorUrl (accessory : Accessory) : Option Str :=
  if accessory.creatorType = .str "User".toList then
    accessory.creatorTargetId.render.map
      (fun t => "https://www.roblox.com/users/".toList ++ t ++ "/profile".toList)
  else
    accessory.creatorTargetId.render.map
      (fun t => "https://www.roblox.com/groups/".toList ++ t)

/-- The function `sendDiscordWebhook(accessory)` (lines 79-137), called for the
pending identifier `id`. The price, the urls and the embed are built before
the `try` of line 115, so a rendering that throws there makes the function
throw (`none`). Otherwise it returns the embed it posts and its boolean: true
when the POST got an `ok` status and the log line of line 131, which renders
the name inside the `try`, did not throw. -/
def sendDiscordWebhook (w : World) (id : Str) (accessory : Accessory) :
    Option (Embed × Bool) := do
  let price ← priceLabel accessory
  let thumbnailUrl := fetchThumbnailUrl w id accessory.id
  let assetUrl ← assetUrl accessory
  let creatorUrl ← creatorUrl accessory
  let creatorName ← accessory.creatorName.render
  let embed : Embed :=
    { title := accessory.name
      url := assetUrl
      description := if accessory.description.truthy then accessory.description else .str []
      thumbnailUrl := thumbnailUrl
      fields :=
        [ { name := "Price".toList, value := price, inline := true },
          { name := "Creator".toList,
            value := "[".toList ++ creatorName ++ "](".toList ++ creatorUrl ++ ")".toList,
            inline := true } ] }
  pure (embed, w.webhookOk id && accessory.name.render.isSome)

/-- The body of the loop of `processItems` (lines 150-160) for one pending
identifier. A throw of `sendDiscordWebhook` or of `appendFileSync` is not
caught. -/
def processItem (w : World) (id : Str) (m : Machine) : Run Machine :=
  match fetchAccessoryDetails w id with
  | none => pure (m.emit (.detail id false))
  | some details =>
    match sendDiscordWebhook w id details with
    | none => .error (m.emit (.detail id true))
    | some (_, success) =>
      let m2 := (m.emit (.detail id true)).emit (.webhook id success)
      if success then do
        let m3 ← appendFileSync .sentItemsFilePath (id ++ ['\n']) m2
        limitSentItems (m3.emit (.commit id))
      else pure m2

/-- The loop `for (const id of itemIds)` of `processItems` (line 149). -/
def processLoop (w : World) : List Str → Machine → Run Machine
  | [], m => pure m
  | id :: rest, m => do
    let m1 ← processItem w id m
    processLoop w rest m1

/-- The start of `processItems` (lines 141-145): fetch, filter, and read the
pending identifiers back from `items.txt`. -/
def loadPending (w : World) (m : Machine) : Run (List Str × Machine) := do
  let m2 ← filterItems (fetchAssetIds w m)
  let (itemIds, m3) ← readIdsFromFile .itemsFilePath m2
  let (_, m4) ← readIdsFromFile .sentItemsFilePath m3
  pure (itemIds, m4)

/-- The function `processItems()` (lines 140-164): one cycle. -/
def processItems (w : World) (m : Machine) : Run Machine := do
  let (itemIds, m4) ← loadPending w m
  let m5 ← processLoop w itemIds m4
  writeFileSync .itemsFilePath [] m5

/-- The loop of `runHourly()` (lines 167-173), run for as many cycles as there
are worlds; a throw in a cycle ends the run. -/
def runHourly : List World → Machine → Run Machine
  | [], m => pure m
  | w :: ws, m => do
    let m1 ← processItems w m
    runHourly ws m1

/-- The state a run ends in, thrown or not. -/
def finalState : Run Machine → Machine
  | .ok m => m
  | .error m => m

/-- The successful delivery of `x`. -/
abbrev delivered (x : Str) : Event := .webhook x true

/-! ## Vocabulary of the statements -/

/-- For the pending identifier `x`: `fetchAccessoryDetails` returned a detail
and `sendDiscordWebhook` returned true for it. -/
def sendOk (w : World) (x : Str) : Bool :=
  match w.details x with
  | none => false
  | some acc =>
    match sendDiscordWebhook w x acc with
    | some (_, b) => b
    | none => false

/-- What the two calls of the loop body come to for one identifier. -/
inductive Outcome where
  | noDetail
  | threw
  | failed
  | sent
  deriving DecidableEq, Repr

/-- The outcome of the loop body's two calls for the pending identifier `x`. -/
def outcome (w : World) (x : Str) : Outcome :=
  match w.details x with
  | none => .noDetail
  | some acc =>
    match sendDiscordWebhook w x acc with
    | none => .threw
    | some (_, true) => .sent
    | some (_, false) => .failed

/-- The event is a rewrite by `limitSentItems` that dropped `x` from the
ledger: `x` was an entry before it and is none after. -/
def dropsId (x : Str) : Event → Prop
  | .trimmed before kept => x ∈ before ∧ x ∉ kept
  | _ => False

/-- The identifiers of the detail requests of a record, in order. -/
def detailIds : List Event → List Str
  | [] => []
  | .detail id _ :: es => id :: detailIds es
  | _ :: es => detailIds es

/-- The text of a readable file, an absent file counting as empty. -/
def fileText : File → Str
  | .text s => s
  | .readOnly s => s
  | _ => []

/-- Whether `writeFileSync` and `appendFileSync` succeed on the file. -/
def isWritable : File → Bool
  | .absent => true
  | .text _ => true
  | _ => false

/-- The file after `readIdsFromFile` has made sure it exists: an absent file
is created empty, any other file is as it was. -/
def created : File → File
  | .absent => .text []
  | f => f

/-- A readable ledger file with the given text, writable or read-only. -/
def ledgerFile (writable : Bool) (s : Str) : File :=
  if writable then .text s else .readOnly s

/-- The file `items.txt` as `fetchAssetIds` leaves it. -/
def fetchedItems (w : World) (items : File) : File :=
  match w.listing, items with
  | some ids, .absent => .text (joinNL ids)
  | some ids, .text _ => .text (joinNL ids)
  | _, f => f

/-- The pending set of `filterItems`, from the texts of `items.txt` and
`sent_items.txt`. -/
def pendingSet (a b : Str) : List Str :=
  newSet ((newSet (entries a)).filter (fun id => !(decide (id ∈ newSet (entries b)))))

/-- The last 150 entries of a list, as `limitSentItems` slices them. -/
def lastEntries (l : List Str) : List Str := l.drop (l.length - 150)

/-- The ledger text after `limitSentItems`. -/
def limitText (s : Str) : Str :=
  if (entries s).length > 150 then joinNL (lastEntries (entries s)) ++ ['\n'] else s

/-- The events `limitSentItems` records on a ledger text. -/
def limitEvents (s : Str) : List Event :=
  if (entries s).length > 150 then [.trimmed (entries s) (lastEntries (entries s))] else []

/-- Whether the loop body throws on `id`: `sendDiscordWebhook` throws, or it
returns true and the ledger cannot be appended to. -/
def stops (w : World) (writable : Bool) (id : Str) : Bool :=
  match outcome w id with
  | .threw => true
  | .sent => !writable
  | _ => false

/-- The ledger text after the loop body has processed `id`. -/
def stepText (w : World) (writable : Bool) (id : Str) (s : Str) : Str :=
  match outcome w id with
  | .sent => if writable then limitText (s ++ (id ++ ['\n'])) else s
  | _ => s

/-- The events the loop body records for `id` on the ledger text `s`. -/
def stepEvents (w : World) (writable : Bool) (id : Str) (s : Str) : List Event :=
  match outcome w id with
  | .noDetail => [.detail id false]
  | .threw => [.detail id true]
  | .failed => [.detail id true, .webhook id false]
  | .sent =>
    if writable then
      [.detail id true, .webhook id true, .commit id] ++ limitEvents (s ++ (id ++ ['\n']))
    else [.detail id true, .webhook id true]

/-- The ledger text after the loop has processed `ids`, up to its first throw. -/
def loopText (w : World) (writable : Bool) : List Str → Str → Str
  | [], s => s
  | id :: rest, s =>
    if stops w writable id then stepText w writable id s
    else loopText w writable rest (stepText w writable id s)

/-- The events the loop records for `ids` from the ledger text `s`, up to its
first throw. -/
def loopEvents (w : World) (writable : Bool) : List Str → Str → List Event
  | [], _ => []
  | id :: rest, s =>
    stepEvents w writable id s ++
      if stops w writable id then []
      else loopEvents w writable rest (stepText w writable id s)

/-- Whether the loop throws on one of `ids`. -/
def loopStops (w : World) (writable : Bool) (ids : List Str) : Bool :=
  ids.any (stops w writable)

/-- The pending set of a cycle that starts on the given files. -/
def cyclePending (w : World) (fi fs : File) : List Str :=
  pendingSet (fileText (fetchedItems w fi)) (fileText fs)

/-- The ledger text after the commits of a completed loop: for each pending
identifier in order, the identifier and a newline are appended and
`limitSentItems` applied exactly when its detail was found and the webhook
returned true. -/
def committedText (w : World) (ids : List Str) (s : Str) : Str :=
  ids.foldl (fun t x => if sendOk w x then limitText (t ++ (x ++ ['\n'])) else t) s

/-- The identifier `x` has a successful delivery in the record after which no
rewrite dropped it. -/
def Live (x : Str) (t : List Event) : Prop :=
  ∃ t1 t2, t = t1 ++ delivered x :: t2 ∧ ∀ e ∈ t2, ¬ dropsId x e

/-- Between any two successful deliveries of one identifier, a rewrite by
`limitSentItems` dropped it from the ledger. -/
def NoRedelivery (t : List Event) : Prop :=
  ∀ x t1 t2 t3, t = t1 ++ delivered x :: (t2 ++ delivered x :: t3) →
    ∃ e ∈ t2, dropsId x e

/-- The ledger text is empty or ends with a newline. -/
def Terminated (s : Str) : Prop := s = [] ∨ ∃ s0, s = s0 ++ ['\n']

/-! ## Concrete scenarios -/

/-- The identifier `A`. -/
def idA : Str := "A".toList

/-- The identifier `B`. -/
def idB : Str := "B".toList

/-- The identifier `C`. -/
def idC : Str := "C".toList

/-- An item detail of a user-created, purchasable accessory. -/
def sampleDetail : Accessory :=
  { id := .other "1".toList true
    name := .str "Hat".toList
    description := .str []
    isPurchasable := .other "true".toList true
    price := .other "5".toList true
    creatorType := .str "User".toList
    creatorTargetId := .other "7".toList true
    creatorName := .str "Ann".toList }

/-- An item detail of a group-created accessory. -/
def groupDetail : Accessory :=
  { sampleDetail with creatorType := .str "Group".toList }

/-- An item detail whose creator name is an object that cannot be converted
to a string. -/
def brokenDetail : Accessory :=
  { sampleDetail with creatorName := .unprintable }

/-- A cycle that lists `A`, `B`, `C`, finds every detail, and in which the
webhook accepts `A` only. -/
def worldOne : World :=
  { listing := some [idA, idB, idC]
    details := fun _ => some sampleDetail
    thumbnail := fun _ => none
    webhookOk := fun x => decide (x = idA) }

/-- A cycle that lists `A`, `B`, `C` while the detail service fails. -/
def worldDetailDown : World :=
  { listing := some [idA, idB, idC]
    details := fun _ => none
    thumbnail := fun _ => none
    webhookOk := fun _ => true }

/-- A cycle that lists `A`, `B`, `C` and in which the detail of `A` has a
creator name that cannot be converted to a string. -/
def worldBrokenDetail : World :=
  { listing := some [idA, idB, idC]
    details := fun x => if x = idA then some brokenDetail else some sampleDetail
    thumbnail := fun _ => none
    webhookOk := fun _ => true }

/-- The 151 one-character identifiers with code points 256 to 406. -/
def manyIds : List Str := (List.range 151).map (fun i => [Char.ofNat (256 + i)])

/-- A cycle that lists the 151 identifiers of `manyIds` and delivers them all. -/
def worldMany : World :=
  { listing := some manyIds
    details := fun _ => some sampleDetail
    thumbnail := fun _ => none
    webhookOk := fun _ => true }

/-- A cycle that lists the first identifier of `manyIds` alone and delivers it. -/
def worldAgain : World :=
  { listing := some [[Char.ofNat 256]]
    details := fun _ => some sampleDetail
    thumbnail := fun _ => none
    webhookOk := fun _ => true }

/-- A cycle in which the catalog listing fails and everything else works. -/
def worldListingDown : World :=
  { listing := none
    details := fun _ => some sampleDetail
    thumbnail := fun _ => none
    webhookOk := fun _ => true }

/-- The invariant of a run, on the ledger text and the record: the text is
empty or newline-terminated, no identifier was delivered again while still in
the ledger, and every identifier delivered and not dropped since is an entry. -/
def LedgerInv (s : Str) (t : List Event) : Prop :=
  Terminated s ∧ NoRedelivery t ∧ ∀ x, Live x t → x ∈ entries s

/-- The first occurrences of a list, in order. -/
def firstOcc : List Str → List Str
  | [] => []
  | x :: xs => x :: (firstOcc xs).filter (fun y => !(decide (y = x)))

/-! ## Lines and entries -/

theorem splitNL_ne_nil (s : Str) : splitNL s ≠ [] := by
  cases s with
  | nil => simp [splitNL]
  | cons c cs =>
    simp only [splitNL]
    split
    · simp
    · cases h : splitNL cs <;> simp [consFirst]

theorem consFirst_append (c : Char) (l r : List Str) (h : l ≠ []) :
    consFirst c (l ++ r) = consFirst c l ++ r := by
  cases l with
  | nil => exact absurd rfl h
  | cons a as => simp [consFirst]

theorem splitNL_append_nl (a b : Str) :
    splitNL (a ++ '\n' :: b) = splitNL a ++ splitNL b := by
  induction a with
  | nil => simp [splitNL]
  | cons c cs ih =>
    by_cases hc : c = '\n'
    · simp [splitNL, hc, ih]
    · have e : (c :: cs) ++ '\n' :: b = c :: (cs ++ '\n' :: b) := rfl
      rw [e]
      simp only [splitNL, hc, if_false]
      rw [ih]
      exact consFirst_append c _ _ (splitNL_ne_nil cs)

theorem splitNL_of_not_mem (a : Str) (h : '\n' ∉ a) : splitNL a = [a] := by
  induction a with
  | nil => simp [splitNL]
  | cons c cs ih =>
    simp only [List.mem_cons, not_or] at h
    have hc : c ≠ '\n' := fun e => h.1 e.symm
    simp [splitNL, hc, ih h.2, consFirst]

theorem not_mem_of_mem_splitNL (s x : Str) (h : x ∈ splitNL s) : '\n' ∉ x := by
  induction s generalizing x with
  | nil => simp [splitNL] at h; simp [h]
  | cons c cs ih =>
    by_cases hc : c = '\n'
    · simp only [splitNL, hc, if_true, List.mem_cons] at h
      rcases h with h | h
      · simp [h]
      · exact ih x h
    · simp only [splitNL, hc, if_false] at h
      cases hs : splitNL cs with
      | nil => exact absurd hs (splitNL_ne_nil cs)
      | cons l ls =>
        rw [hs] at h
        simp only [consFirst, List.mem_cons] at h
        rcases h with h | h
        · subst h
          have hl := ih l (by simp [hs])
          simp only [List.mem_cons, not_or]
          exact ⟨fun e => hc e.symm, hl⟩
        · exact ih x (by simp [hs, h])

theorem splitNL_joinNL (l : List Str) (hne : l ≠ []) (h : ∀ x ∈ l, '\n' ∉ x) :
    splitNL (joinNL l) = l := by
  induction l with
  | nil => exact absurd rfl hne
  | cons a rest ih =>
    cases rest with
    | nil => simpa [joinNL] using splitNL_of_not_mem a (h a (by simp))
    | cons b rest2 =>
      simp only [joinNL]
      rw [splitNL_append_nl, splitNL_of_not_mem a (h a (by simp)),
        ih (by simp) (fun x hx => h x (List.mem_cons_of_mem _ hx))]
      rfl

theorem trimTruthy_nil : trimTruthy [] = false := by decide

theorem mem_entries (s x : Str) (h : x ∈ entries s) : '\n' ∉ x ∧ trimTruthy x = true := by
  simp only [entries, List.mem_filter] at h
  exact ⟨not_mem_of_mem_splitNL s x h.1, h.2⟩

theorem entries_joinNL (l : List Str) (h : ∀ x ∈ l, '\n' ∉ x ∧ trimTruthy x = true) :
    entries (joinNL l) = l := by
  by_cases hne : l = []
  · subst hne; decide
  · rw [entries, splitNL_joinNL l hne (fun x hx => (h x hx).1)]
    exact List.filter_eq_self.mpr (fun x hx => (h x hx).2)

theorem entries_joinNL_nl (l : List Str) (h : ∀ x ∈ l, '\n' ∉ x ∧ trimTruthy x = true) :
    entries (joinNL l ++ ['\n']) = l := by
  have e : splitNL (joinNL l ++ ['\n']) = splitNL (joinNL l) ++ [[]] := by
    have := splitNL_append_nl (joinNL l) []
    simpa [splitNL] using this
  rw [entries, e, List.filter_append]
  have : entries (joinNL l) = l := entries_joinNL l h
  rw [entries] at this
  rw [this]
  simp [trimTruthy_nil]

theorem entries_append_line (s id : Str) (hs : Terminated s) (hnl : '\n' ∉ id)
    (ht : trimTruthy id = true) : entries (s ++ (id ++ ['\n'])) = entries s ++ [id] := by
  have hid : splitNL (id ++ ['\n']) = [id, []] := by
    have := splitNL_append_nl id []
    simpa [splitNL, splitNL_of_not_mem id hnl] using this
  rcases hs with hs | ⟨s0, hs⟩
  · subst hs
    simp [entries, hid, ht, trimTruthy_nil, splitNL]
  · subst hs
    have e1 : splitNL (s0 ++ ['\n'] ++ (id ++ ['\n'])) = splitNL s0 ++ [id, []] := by
      have := splitNL_append_nl s0 (id ++ ['\n'])
      rw [hid] at this
      rw [← this]
      simp
    have e2 : splitNL (s0 ++ ['\n']) = splitNL s0 ++ [[]] := by
      have := splitNL_append_nl s0 []
      simpa [splitNL] using this
    rw [entries, entries, e1, e2]
    simp [List.filter_append, ht, trimTruthy_nil]

/-! ## Sets in insertion order -/

theorem foldl_setAdd (l acc : List Str) :
    l.foldl setAdd acc = acc ++ (firstOcc l).filter (fun y => !(decide (y ∈ acc))) := by
  induction l generalizing acc with
  | nil => simp [firstOcc]
  | cons x xs ih =>
    simp only [List.foldl_cons, firstOcc]
    rw [ih]
    by_cases hx : x ∈ acc
    · simp only [setAdd, hx, if_true, List.filter_cons, decide_True, Bool.not_true,
        List.filter_filter]
      congr 1
      apply List.filter_congr
      intro y _
      by_cases hy : y ∈ acc
      · simp [hy]
      · have : y ≠ x := fun e => hy (e ▸ hx)
        simp [hy, this]
    · simp only [setAdd, hx, if_false, List.filter_cons, decide_False, Bool.not_false,
        if_true, List.filter_filter, List.append_assoc, List.singleton_append]
      congr 2
      apply List.filter_congr
      intro y _
      by_cases hy : y ∈ acc <;> by_cases hyx : y = x <;> simp [hy, hyx]

theorem newSet_eq_firstOcc (l : List Str) : newSet l = firstOcc l := by
  simp [newSet, foldl_setAdd]

theorem mem_firstOcc (l : List Str) (x : Str) : x ∈ firstOcc l ↔ x ∈ l := by
  induction l with
  | nil => simp [firstOcc]
  | cons a as ih =>
    simp only [firstOcc, List.mem_cons, List.mem_filter, ih]
    by_cases h : x = a <;> simp [h]

theorem firstOcc_nodup (l : List Str) : (firstOcc l).Nodup := by
  induction l with
  | nil => simp [firstOcc]
  | cons a as ih =>
    simp only [firstOcc, List.nodup_cons, List.mem_filter]
    exact ⟨by simp, ih.filter _⟩

theorem firstOcc_of_nodup (l : List Str) (h : l.Nodup) : firstOcc l = l := by
  induction l with
  | nil => simp [firstOcc]
  | cons a as ih =>
    simp only [List.nodup_cons] at h
    simp only [firstOcc, ih h.2]
    congr 1
    apply List.filter_eq_self.mpr
    intro y hy
    have : y ≠ a := fun e => h.1 (e ▸ hy)
    simp [this]

theorem indexOf_head (a : Str) (as : List Str) : List.indexOf a (a :: as) = 0 := by
  simp [List.indexOf_cons]

theorem indexOf_tail (a y : Str) (as : List Str) (h : ¬ y = a) :
    List.indexOf y (a :: as) = List.indexOf y as + 1 := by
  have : (a == y) = false := beq_eq_false_iff_ne.mpr (fun e => h e.symm)
  simp [List.indexOf_cons, this]

theorem firstOcc_order (l : List Str) :
    (firstOcc l).Pairwise (fun x y => l.indexOf x < l.indexOf y) := by
  induction l with
  | nil => simp [firstOcc]
  | cons a as ih =>
    simp only [firstOcc, List.pairwise_cons]
    constructor
    · intro y hy
      simp only [List.mem_filter, Bool.not_eq_true', decide_eq_false_iff_not] at hy
      rw [indexOf_head, indexOf_tail _ _ _ hy.2]
      exact Nat.succ_pos _
    · have hsub : ((firstOcc as).filter (fun y => !(decide (y = a)))).Pairwise
          (fun x y => as.indexOf x < as.indexOf y) := ih.filter _
      refine hsub.imp_of_mem ?_
      intro x y hx hy hxy
      simp only [List.mem_filter, Bool.not_eq_true', decide_eq_false_iff_not] at hx hy
      rw [indexOf_tail _ _ _ hx.2, indexOf_tail _ _ _ hy.2]
      exact Nat.succ_lt_succ hxy

theorem mem_newSet (l : List Str) (x : Str) : x ∈ newSet l ↔ x ∈ l := by
  rw [newSet_eq_firstOcc, mem_firstOcc]

theorem newSet_nodup (l : List Str) : (newSet l).Nodup := by
  rw [newSet_eq_firstOcc]; exact firstOcc_nodup l

theorem newSet_of_nodup (l : List Str) (h : l.Nodup) : newSet l = l := by
  rw [newSet_eq_firstOcc]; exact firstOcc_of_nodup l h

/-- The pending set `filterItems` computes from the entries of the two files. -/
theorem pending_spec (a b : List Str) :
    let r := newSet ((newSet a).filter (fun id => !(decide (id ∈ newSet b))))
    r.Nodup ∧ r.Pairwise (fun x y => a.indexOf x < a.indexOf y) ∧
      ∀ x, x ∈ r ↔ x ∈ a ∧ x ∉ b := by
  intro r
  have hr : r = (firstOcc a).filter (fun id => !(decide (id ∈ b))) := by
    show newSet ((newSet a).filter (fun id => !(decide (id ∈ newSet b)))) = _
    rw [newSet_of_nodup _ ((newSet_nodup a).filter _), newSet_eq_firstOcc a]
    apply List.filter_congr
    intro y _
    simp [mem_newSet]
  refine ⟨hr ▸ (firstOcc_nodup a).filter _, hr ▸ (firstOcc_order a).filter _, ?_⟩
  intro x
  rw [hr]
  simp [List.mem_filter, mem_firstOcc]

theorem entries_nodup_roundtrip (r : List Str) (s : Str) (h : ∀ x ∈ r, x ∈ entries s)
    (hn : r.Nodup) : newSet (entries (joinNL r)) = r := by
  rw [entries_joinNL r (fun x hx => mem_entries s x (h x hx)), newSet_of_nodup r hn]

/-! ## The file operations in closed form -/

theorem limitSentItems_text (fi : File) (s : Str) (log : List Event) :
    limitSentItems ⟨⟨fi, .text s⟩, log⟩ =
      if (entries s).length > 150 then
        .ok ⟨⟨fi, .text (joinNL (lastEntries (entries s)) ++ ['\n'])⟩,
          log ++ [.trimmed (entries s) (lastEntries (entries s))]⟩
      else .ok ⟨⟨fi, .text s⟩, log⟩ := by
  by_cases h : (entries s).length > 150 <;>
    simp [limitSentItems, existsSync, readFileSync, writeFileSync, Disk.get, Disk.set,
      bind, Except.bind, pure, Except.pure, Machine.emit, lastEntries, h]

theorem limitSentItems_readOnly (fi : File) (s : Str) (log : List Event) :
    limitSentItems ⟨⟨fi, .readOnly s⟩, log⟩ =
      if (entries s).length > 150 then .error ⟨⟨fi, .readOnly s⟩, log⟩
      else .ok ⟨⟨fi, .readOnly s⟩, log⟩ := by
  by_cases h : (entries s).length > 150 <;>
    simp [limitSentItems, existsSync, readFileSync, writeFileSync, Disk.get,
      bind, Except.bind, pure, Except.pure, h]

theorem mem_lastEntries (l : List Str) (x : Str) (h : x ∈ lastEntries l) : x ∈ l :=
  List.mem_of_mem_drop h

theorem lastEntries_length (l : List Str) : (lastEntries l).length = min 150 l.length := by
  simp only [lastEntries, List.length_drop]
  omega

theorem entries_lastEntries (s : Str) :
    entries (joinNL (lastEntries (entries s)) ++ ['\n']) = lastEntries (entries s) :=
  entries_joinNL_nl _ (fun x hx => mem_entries s x (mem_lastEntries _ x hx))

theorem fetchAssetIds_eq (w : World) (fi fs : File) (log : List Event) :
    fetchAssetIds w ⟨⟨fi, fs⟩, log⟩ = ⟨⟨fetchedItems w fi, fs⟩, log⟩ := by
  cases hl : w.listing <;> cases fi <;>
    simp [fetchAssetIds, fetchedItems, hl, writeFileSync, Disk.get, Disk.set]

theorem entries_nil : entries [] = [] := by decide

theorem newSet_nil : newSet [] = [] := rfl

theorem pendingSet_spec (a b : Str) :
    (pendingSet a b).Nodup ∧
      (pendingSet a b).Pairwise (fun x y => (entries a).indexOf x < (entries a).indexOf y) ∧
      ∀ x, x ∈ pendingSet a b ↔ x ∈ entries a ∧ x ∉ entries b :=
  pending_spec (entries a) (entries b)

theorem entries_joinNL_pendingSet (a b : Str) :
    entries (joinNL (pendingSet a b)) = pendingSet a b :=
  entries_joinNL _ (fun x hx => mem_entries a x (((pendingSet_spec a b).2.2 x).mp hx).1)

theorem filterItems_ok (fi fs : File) (log : List Event) (hi : isWritable fi = true)
    (hs : fs ≠ .locked) :
    filterItems ⟨⟨fi, fs⟩, log⟩ =
      .ok ⟨⟨.text (joinNL (pendingSet (fileText fi) (fileText fs))), created fs⟩, log⟩ := by
  cases fi <;> cases fs <;> first
    | (exfalso; revert hi; simp [isWritable]; done)
    | exact absurd rfl hs
    | simp [filterItems, readIdsFromFile, existsSync, readFileSync, writeFileSync, Disk.get,
        Disk.set, bind, Except.bind, pure, Except.pure, fileText, pendingSet, entries_nil,
        newSet_nil, created]

theorem filterItems_fail (fi fs : File) (log : List Event)
    (h : isWritable fi = false ∨ fs = .locked) :
    ∃ m, filterItems ⟨⟨fi, fs⟩, log⟩ = .error m ∧ m.log = log := by
  cases fi <;> cases fs <;> first
    | (exfalso; revert h; simp [isWritable]; done)
    | exact ⟨_, rfl, rfl⟩

theorem limitSentItems_closed (fi : File) (s : Str) (log : List Event) :
    limitSentItems ⟨⟨fi, .text s⟩, log⟩ = .ok ⟨⟨fi, .text (limitText s)⟩, log ++ limitEvents s⟩ := by
  rw [limitSentItems_text]
  by_cases h : (entries s).length > 150 <;> simp [limitText, limitEvents, h]

theorem isWritable_fetchedItems (w : World) (fi : File) :
    isWritable (fetchedItems w fi) = isWritable fi := by
  cases hl : w.listing <;> cases fi <;> simp [fetchedItems, hl, isWritable]

theorem created_eq_ledgerFile (fs : File) (hs : fs ≠ .locked) :
    created fs = ledgerFile (isWritable fs) (fileText fs) := by
  cases fs <;> first
    | exact absurd rfl hs
    | rfl

theorem cyclePending_spec (w : World) (fi fs : File) :
    (cyclePending w fi fs).Nodup ∧
      ∀ x ∈ cyclePending w fi fs,
        x ∉ entries (fileText fs) ∧ '\n' ∉ x ∧ trimTruthy x = true := by
  refine ⟨(pendingSet_spec _ _).1, ?_⟩
  intro x hx
  have h := ((pendingSet_spec _ _).2.2 x).mp hx
  exact ⟨h.2, mem_entries _ x h.1⟩

theorem loadPending_ok (w : World) (fi fs : File) (log : List Event)
    (hi : isWritable fi = true) (hs : fs ≠ .locked) :
    loadPending w ⟨⟨fi, fs⟩, log⟩ =
      .ok (cyclePending w fi fs,
        ⟨⟨.text (joinNL (cyclePending w fi fs)), created fs⟩, log⟩) := by
  have hn : newSet (entries (joinNL (cyclePending w fi fs))) = cyclePending w fi fs := by
    rw [cyclePending, entries_joinNL_pendingSet, newSet_of_nodup _ (pendingSet_spec _ _).1]
  have hi2 : isWritable (fetchedItems w fi) = true := by rw [isWritable_fetchedItems]; exact hi
  simp only [loadPending, fetchAssetIds_eq, filterItems_ok _ _ _ hi2 hs, bind, Except.bind]
  cases fs <;> first
    | exact absurd rfl hs
    | (simp only [readIdsFromFile, existsSync, readFileSync, Disk.get, bind, Except.bind, pure,
        Except.pure, if_true, created]
       rw [← cyclePending, hn])

theorem loadPending_fail (w : World) (fi fs : File) (log : List Event)
    (h : isWritable fi = false ∨ fs = .locked) :
    ∃ m, loadPending w ⟨⟨fi, fs⟩, log⟩ = .error m ∧ m.log = log := by
  have h2 : isWritable (fetchedItems w fi) = false ∨ fs = .locked := by
    rcases h with h | h
    · left; rw [isWritable_fetchedItems]; exact h
    · right; exact h
  obtain ⟨m, hm, hl⟩ := filterItems_fail _ _ log h2
  exact ⟨m, by simp [loadPending, fetchAssetIds_eq, hm, bind, Except.bind], hl⟩

theorem loadPending_inv (w : World) (fi fs : File) (log : List Event) (p : List Str)
    (m : Machine) (h : loadPending w ⟨⟨fi, fs⟩, log⟩ = .ok (p, m)) :
    isWritable fi = true ∧ fs ≠ .locked ∧ p = cyclePending w fi fs := by
  by_cases hi : isWritable fi = true
  · by_cases hs : fs = .locked
    · obtain ⟨m1, he, _⟩ := loadPending_fail w fi fs log (Or.inr hs)
      rw [he] at h; cases h
    · rw [loadPending_ok w fi fs log hi hs] at h
      injection h with h
      injection h with h1 h2
      exact ⟨hi, hs, h1.symm⟩
  · obtain ⟨m1, he, _⟩ := loadPending_fail w fi fs log (Or.inl (by simpa using hi))
    rw [he] at h; cases h

theorem outcome_sent_iff (w : World) (x : Str) : outcome w x = .sent ↔ sendOk w x = true := by
  cases hd : w.details x with
  | none => simp [outcome, sendOk, hd]
  | some acc =>
    cases hs : sendDiscordWebhook w x acc with
    | none => simp [outcome, sendOk, hd, hs]
    | some r => obtain ⟨e, b⟩ := r; cases b <;> simp [outcome, sendOk, hd, hs]

theorem outcome_noDetail_iff (w : World) (x : Str) :
    outcome w x = .noDetail ↔ (w.details x).isSome = false := by
  cases hd : w.details x with
  | none => simp [outcome, hd]
  | some acc =>
    cases hs : sendDiscordWebhook w x acc with
    | none => simp [outcome, hd, hs]
    | some r => obtain ⟨e, b⟩ := r; cases b <;> simp [outcome, hd, hs]

theorem processItem_closed (w : World) (wr : Bool) (id : Str) (fi : File) (s : Str)
    (log : List Event) :
    processItem w id ⟨⟨fi, ledgerFile wr s⟩, log⟩ =
      if stops w wr id then
        .error ⟨⟨fi, ledgerFile wr (stepText w wr id s)⟩, log ++ stepEvents w wr id s⟩
      else .ok ⟨⟨fi, ledgerFile wr (stepText w wr id s)⟩, log ++ stepEvents w wr id s⟩ := by
  cases hd : w.details id with
  | none =>
    simp [processItem, fetchAccessoryDetails, stops, stepText, stepEvents, outcome, hd,
      Machine.emit, pure, Except.pure]
  | some acc =>
    cases hs : sendDiscordWebhook w id acc with
    | none =>
      simp [processItem, fetchAccessoryDetails, stops, stepText, stepEvents, outcome, hd, hs,
        Machine.emit]
    | some r =>
      obtain ⟨e, b⟩ := r
      cases b
      · simp [processItem, fetchAccessoryDetails, stops, stepText, stepEvents, outcome, hd,
          hs, Machine.emit, pure, Except.pure]
      · cases wr
        · simp [processItem, fetchAccessoryDetails, stops, stepText, stepEvents, outcome, hd,
            hs, Machine.emit, appendFileSync, Disk.get, ledgerFile, bind, Except.bind]
        · simp [processItem, fetchAccessoryDetails, stops, stepText, stepEvents, outcome, hd,
            hs, Machine.emit, appendFileSync, Disk.get, Disk.set, ledgerFile, bind,
            Except.bind, limitSentItems_closed]

theorem processLoop_closed (w : World) (wr : Bool) (ids : List Str) (fi : File) (s : Str)
    (log : List Event) :
    processLoop w ids ⟨⟨fi, ledgerFile wr s⟩, log⟩ =
      if loopStops w wr ids then
        .error ⟨⟨fi, ledgerFile wr (loopText w wr ids s)⟩, log ++ loopEvents w wr ids s⟩
      else .ok ⟨⟨fi, ledgerFile wr (loopText w wr ids s)⟩, log ++ loopEvents w wr ids s⟩ := by
  induction ids generalizing s log with
  | nil => simp [processLoop, loopText, loopEvents, loopStops, pure, Except.pure]
  | cons id rest ih =>
    by_cases hst : stops w wr id = true
    · simp [processLoop, processItem_closed, bind, Except.bind, loopText, loopEvents,
        loopStops, hst]
    · have hst2 : stops w wr id = false := by simpa using hst
      simp only [processLoop, processItem_closed, bind, Except.bind, loopText, loopEvents,
        loopStops, hst2, List.any_cons, Bool.false_or, if_false, Bool.false_eq_true]
      rw [ih]
      simp [loopStops, List.append_assoc]

theorem processItems_closed (w : World) (fi fs : File) (log : List Event)
    (hi : isWritable fi = true) (hs : fs ≠ .locked) :
    processItems w ⟨⟨fi, fs⟩, log⟩ =
      if loopStops w (isWritable fs) (cyclePending w fi fs) then
        .error ⟨⟨.text (joinNL (cyclePending w fi fs)),
            ledgerFile (isWritable fs)
              (loopText w (isWritable fs) (cyclePending w fi fs) (fileText fs))⟩,
          log ++ loopEvents w (isWritable fs) (cyclePending w fi fs) (fileText fs)⟩
      else
        .ok ⟨⟨.text [],
            ledgerFile (isWritable fs)
              (loopText w (isWritable fs) (cyclePending w fi fs) (fileText fs))⟩,
          log ++ loopEvents w (isWritable fs) (cyclePending w fi fs) (fileText fs)⟩ := by
  simp only [processItems, loadPending_ok w fi fs log hi hs, bind, Except.bind,
    created_eq_ledgerFile fs hs, processLoop_closed]
  by_cases hst : loopStops w (isWritable fs) (cyclePending w fi fs) = true
  · simp [hst]
  · simp [hst, writeFileSync, Disk.get, Disk.set]

theorem processItems_fail (w : World) (fi fs : File) (log : List Event)
    (h : isWritable fi = false ∨ fs = .locked) :
    ∃ m, processItems w ⟨⟨fi, fs⟩, log⟩ = .error m ∧ m.log = log := by
  obtain ⟨m, hm, hl⟩ := loadPending_fail w fi fs log h
  exact ⟨m, by simp [processItems, hm, bind, Except.bind], hl⟩

theorem processItems_ok_of (w : World) (fi fs : File) (log : List Event)
    (hi : isWritable fi = true) (hs : fs ≠ .locked)
    (hns : loopStops w (isWritable fs) (cyclePending w fi fs) = false) :
    processItems w ⟨⟨fi, fs⟩, log⟩ =
      .ok ⟨⟨.text [],
          ledgerFile (isWritable fs)
            (loopText w (isWritable fs) (cyclePending w fi fs) (fileText fs))⟩,
        log ++ loopEvents w (isWritable fs) (cyclePending w fi fs) (fileText fs)⟩ := by
  rw [processItems_closed w fi fs log hi hs, hns]
  rfl

theorem processItems_ok_inv (w : World) (fi fs : File) (log : List Event) (m : Machine)
    (hi : isWritable fi = true) (hs : fs ≠ .locked)
    (h : processItems w ⟨⟨fi, fs⟩, log⟩ = .ok m) :
    loopStops w (isWritable fs) (cyclePending w fi fs) = false ∧
      m = ⟨⟨.text [],
          ledgerFile (isWritable fs)
            (loopText w (isWritable fs) (cyclePending w fi fs) (fileText fs))⟩,
        log ++ loopEvents w (isWritable fs) (cyclePending w fi fs) (fileText fs)⟩ := by
  rw [processItems_closed w fi fs log hi hs] at h
  by_cases hst : loopStops w (isWritable fs) (cyclePending w fi fs) = true
  · rw [if_pos hst] at h; cases h
  · rw [if_neg hst] at h
    injection h with h
    exact ⟨by simpa using hst, h.symm⟩

/-- The record at the end of a cycle, thrown or not. -/
theorem processItems_log (w : World) (fi fs : File) (log : List Event) :
    (finalState (processItems w ⟨⟨fi, fs⟩, log⟩)).log = log ∨
      (isWritable fi = true ∧ fs ≠ .locked ∧
        (finalState (processItems w ⟨⟨fi, fs⟩, log⟩)).log =
          log ++ loopEvents w (isWritable fs) (cyclePending w fi fs) (fileText fs)) := by
  by_cases hi : isWritable fi = true
  · by_cases hs : fs = .locked
    · obtain ⟨m, he, hl⟩ := processItems_fail w fi fs log (Or.inr hs)
      exact Or.inl (by simp [he, finalState, hl])
    · refine Or.inr ⟨hi, hs, ?_⟩
      rw [processItems_closed w fi fs log hi hs]
      split <;> rfl
  · obtain ⟨m, he, hl⟩ := processItems_fail w fi fs log (Or.inl (by simpa using hi))
    exact Or.inl (by simp [he, finalState, hl])

/-! ## The record of one cycle -/

theorem detailIds_append (a b : List Event) : detailIds (a ++ b) = detailIds a ++ detailIds b := by
  induction a with
  | nil => rfl
  | cons e es ih => cases e <;> simp [detailIds, ih]

theorem detail_mem_iff (t : List Event) (x : Str) :
    (∃ b, Event.detail x b ∈ t) ↔ x ∈ detailIds t := by
  induction t with
  | nil => simp [detailIds]
  | cons e es ih =>
    cases e <;> simp [detailIds, ← ih, exists_or]

theorem detailIds_stepEvents (w : World) (wr : Bool) (id s : Str) :
    detailIds (stepEvents w wr id s) = [id] := by
  cases h : outcome w id <;> cases wr <;>
    simp [stepEvents, h, limitEvents, detailIds, detailIds_append] <;>
    split <;> simp [detailIds]

theorem commit_mem_stepEvents (w : World) (wr : Bool) (id s x : Str) :
    Event.commit x ∈ stepEvents w wr id s ↔ x = id ∧ outcome w id = .sent ∧ wr = true := by
  cases h : outcome w id <;> cases wr <;> simp [stepEvents, h, limitEvents]

theorem webhook_mem_stepEvents (w : World) (wr : Bool) (id s x : Str) (b : Bool) :
    Event.webhook x b ∈ stepEvents w wr id s ↔
      x = id ∧ ((outcome w id = .sent ∧ b = true) ∨ (outcome w id = .failed ∧ b = false)) := by
  cases h : outcome w id <;> cases wr <;> simp [stepEvents, h, limitEvents]

theorem detail_mem_stepEvents (w : World) (wr : Bool) (id s x : Str) (b : Bool) :
    Event.detail x b ∈ stepEvents w wr id s ↔
      x = id ∧ b = !(decide (outcome w id = .noDetail)) := by
  cases h : outcome w id <;> cases wr <;> simp [stepEvents, h, limitEvents]

theorem delivered_count_stepEvents (w : World) (wr : Bool) (id s x : Str) :
    (stepEvents w wr id s).count (delivered x) ≤ [id].count x := by
  by_cases hx : x = id
  · subst hx
    cases h : outcome w x <;> cases wr <;>
      simp [stepEvents, h, limitEvents, List.count_cons, delivered] <;>
      split <;> simp [List.count_cons]
  · have hx2 : ¬ id = x := fun e => hx e.symm
    cases h : outcome w id <;> cases wr <;>
      simp [stepEvents, h, limitEvents, List.count_cons, delivered, hx, hx2] <;>
      split <;> simp [List.count_cons, hx, hx2]

theorem loopStops_cons (w : World) (wr : Bool) (id : Str) (rest : List Str) :
    loopStops w wr (id :: rest) = false ↔ stops w wr id = false ∧ loopStops w wr rest = false := by
  simp [loopStops]

theorem stops_false_sent (w : World) (wr : Bool) (id : Str) (h : stops w wr id = false)
    (hs : outcome w id = .sent) : wr = true := by
  simp [stops, hs] at h
  exact h

theorem stops_false_threw (w : World) (wr : Bool) (id : Str) (h : stops w wr id = false) :
    outcome w id ≠ .threw := by
  intro hs
  simp [stops, hs] at h

theorem mem_of_loopStops_false (w : World) (wr : Bool) (ids : List Str) (x : Str)
    (h : loopStops w wr ids = false) (hx : x ∈ ids) : stops w wr x = false := by
  simp only [loopStops, List.any_eq_false] at h
  simpa using h x hx

theorem detailIds_loopEvents (w : World) (wr : Bool) (ids : List Str) (s : Str)
    (hns : loopStops w wr ids = false) : detailIds (loopEvents w wr ids s) = ids := by
  induction ids generalizing s with
  | nil => rfl
  | cons id rest ih =>
    obtain ⟨h1, h2⟩ := (loopStops_cons w wr id rest).mp hns
    simp [loopEvents, h1, detailIds_append, detailIds_stepEvents, ih _ h2]

theorem commit_mem_loopEvents (w : World) (wr : Bool) (ids : List Str) (s x : Str)
    (hns : loopStops w wr ids = false) :
    Event.commit x ∈ loopEvents w wr ids s ↔ x ∈ ids ∧ outcome w x = .sent := by
  induction ids generalizing s with
  | nil => simp [loopEvents]
  | cons id rest ih =>
    obtain ⟨h1, h2⟩ := (loopStops_cons w wr id rest).mp hns
    simp only [loopEvents, h1, if_false, List.mem_append, commit_mem_stepEvents, ih _ h2,
      List.mem_cons, Bool.false_eq_true]
    constructor
    · rintro (⟨rfl, h, _⟩ | ⟨h3, h4⟩)
      · exact ⟨Or.inl rfl, h⟩
      · exact ⟨Or.inr h3, h4⟩
    · rintro ⟨rfl | h3, h4⟩
      · exact Or.inl ⟨rfl, h4, stops_false_sent w wr _ h1 h4⟩
      · exact Or.inr ⟨h3, h4⟩

theorem webhook_mem_loopEvents_imp (w : World) (wr : Bool) (ids : List Str) (s x : Str)
    (b : Bool) (h : Event.webhook x b ∈ loopEvents w wr ids s) :
    x ∈ ids ∧ ((outcome w x = .sent ∧ b = true) ∨ (outcome w x = .failed ∧ b = false)) := by
  induction ids generalizing s with
  | nil => simp [loopEvents] at h
  | cons id rest ih =>
    simp only [loopEvents, List.mem_append, webhook_mem_stepEvents] at h
    rcases h with ⟨rfl, h⟩ | h
    · exact ⟨by simp, h⟩
    · split at h
      · simp at h
      · obtain ⟨h3, h4⟩ := ih _ h
        exact ⟨List.mem_cons_of_mem _ h3, h4⟩

theorem webhook_mem_loopEvents (w : World) (wr : Bool) (ids : List Str) (s x : Str)
    (b : Bool) (hns : loopStops w wr ids = false) :
    Event.webhook x b ∈ loopEvents w wr ids s ↔
      x ∈ ids ∧ ((outcome w x = .sent ∧ b = true) ∨ (outcome w x = .failed ∧ b = false)) := by
  refine ⟨webhook_mem_loopEvents_imp w wr ids s x b, ?_⟩
  induction ids generalizing s with
  | nil => simp
  | cons id rest ih =>
    obtain ⟨h1, h2⟩ := (loopStops_cons w wr id rest).mp hns
    rintro ⟨hx, hb⟩
    simp only [loopEvents, h1, if_false, List.mem_append, webhook_mem_stepEvents,
      Bool.false_eq_true]
    rcases List.mem_cons.mp hx with rfl | hx
    · exact Or.inl ⟨rfl, hb⟩
    · exact Or.inr (ih _ h2 ⟨hx, hb⟩)

theorem detail_mem_loopEvents (w : World) (wr : Bool) (ids : List Str) (s x : Str)
    (b : Bool) (hns : loopStops w wr ids = false) :
    Event.detail x b ∈ loopEvents w wr ids s ↔
      x ∈ ids ∧ b = !(decide (outcome w x = .noDetail)) := by
  induction ids generalizing s with
  | nil => simp [loopEvents]
  | cons id rest ih =>
    obtain ⟨h1, h2⟩ := (loopStops_cons w wr id rest).mp hns
    simp only [loopEvents, h1, if_false, List.mem_append, detail_mem_stepEvents, ih _ h2,
      List.mem_cons, Bool.false_eq_true]
    constructor
    · rintro (⟨rfl, h⟩ | ⟨h3, h4⟩)
      · exact ⟨Or.inl rfl, h⟩
      · exact ⟨Or.inr h3, h4⟩
    · rintro ⟨rfl | h3, h4⟩
      · exact Or.inl ⟨rfl, h4⟩
      · exact Or.inr ⟨h3, h4⟩

theorem count_le_one_of_nodup (l : List Str) (h : l.Nodup) (x : Str) : l.count x ≤ 1 := by
  induction l with
  | nil => simp
  | cons a rest ih =>
    simp only [List.nodup_cons] at h
    rw [List.count_cons]
    by_cases hax : a = x
    · subst hax
      have : rest.count a = 0 := List.count_eq_zero_of_not_mem h.1
      simp [this]
    · have hb : (a == x) = false := beq_eq_false_iff_ne.mpr hax
      simpa [hb] using ih h.2

theorem delivered_count_loopEvents (w : World) (wr : Bool) (ids : List Str) (s x : Str) :
    (loopEvents w wr ids s).count (delivered x) ≤ ids.count x := by
  induction ids generalizing s with
  | nil => simp [loopEvents]
  | cons id rest ih =>
    have h1 := delivered_count_stepEvents w wr id s x
    have e : (id :: rest).count x = [id].count x + rest.count x := by
      rw [← List.count_append]; rfl
    rw [loopEvents, List.count_append, e]
    split
    · simpa using Nat.le_add_right_of_le h1
    · exact Nat.add_le_add h1 (ih (stepText w wr id s))

/-! ## Deliveries and drops along the record -/

theorem snoc_split (t t1 : List Event) (e d : Event) (r : List Event)
    (h : t ++ [e] = t1 ++ d :: r) :
    (r = [] ∧ e = d ∧ t = t1) ∨ ∃ r0, r = r0 ++ [e] ∧ t = t1 ++ d :: r0 := by
  rcases List.eq_nil_or_concat r with hr | ⟨r0, e0, hr⟩
  · subst hr
    have h2 : t ++ [e] = t1 ++ [d] := h
    have := List.append_inj' h2 rfl
    exact Or.inl ⟨rfl, by simpa using this.2, this.1⟩
  · rw [List.concat_eq_append] at hr
    subst hr
    have h2 : t ++ [e] = (t1 ++ d :: r0) ++ [e0] := by simpa using h
    have := List.append_inj' h2 rfl
    have he : e = e0 := by simpa using this.2
    subst he
    exact Or.inr ⟨r0, rfl, this.1⟩

theorem live_snoc (x : Str) (t : List Event) (e : Event) (h : Live x (t ++ [e])) :
    e = delivered x ∨ (Live x t ∧ ¬ dropsId x e) := by
  obtain ⟨t1, t2, ht, hno⟩ := h
  rcases snoc_split t t1 e (delivered x) t2 ht with ⟨_, he, _⟩ | ⟨r0, hr, ht0⟩
  · exact Or.inl he
  · subst hr
    refine Or.inr ⟨⟨t1, r0, ht0, fun e0 he0 => hno e0 (by simp [he0])⟩, hno e (by simp)⟩

theorem noRedelivery_snoc (t : List Event) (e : Event) (h : NoRedelivery t)
    (hlive : ∀ x, e = delivered x → ¬ Live x t) : NoRedelivery (t ++ [e]) := by
  intro x t1 t2 t3 ht
  rcases snoc_split t t1 e (delivered x) (t2 ++ delivered x :: t3) ht with
    ⟨hnil, _, _⟩ | ⟨r0, hr, ht0⟩
  · simp at hnil
  · have hr2 : r0 ++ [e] = t2 ++ delivered x :: t3 := hr.symm
    rcases snoc_split r0 t2 e (delivered x) t3 hr2 with ⟨_, he, hr0⟩ | ⟨r1, _, hr1⟩
    · subst hr0
      by_contra hcon
      exact hlive x he ⟨t1, r0, ht0, fun e0 he0 hd => hcon ⟨e0, he0, hd⟩⟩
    · subst hr1
      exact h x t1 t2 r1 ht0

theorem noRedelivery_nil : NoRedelivery [] := by
  intro x t1 t2 t3 h
  simp at h

theorem ledgerInv_emit (s : Str) (t : List Event) (e : Event)
    (hne : ∀ x, e ≠ delivered x)
    (h : NoRedelivery t ∧ ∀ x, Live x t → x ∈ entries s) :
    NoRedelivery (t ++ [e]) ∧ ∀ x, Live x (t ++ [e]) → x ∈ entries s := by
  refine ⟨noRedelivery_snoc t e h.1 (fun x he => absurd he (hne x)), ?_⟩
  intro x hx
  rcases live_snoc x t e hx with he | ⟨hl, _⟩
  · exact absurd he (hne x)
  · exact h.2 x hl

theorem dropsId_trimmed (x : Str) (before kept : List Str) :
    dropsId x (.trimmed before kept) ↔ x ∈ before ∧ x ∉ kept := Iff.rfl
theorem limit_inv (s : Str) (t : List Event) (hs : Terminated s)
    (h : NoRedelivery t ∧ ∀ x, Live x t → x ∈ entries s) :
    LedgerInv (limitText s) (t ++ limitEvents s) ∧
      ∀ y ∈ entries (limitText s), y ∈ entries s := by
  by_cases hlen : (entries s).length > 150
  · simp only [limitText, limitEvents, hlen, if_true]
    rw [entries_lastEntries]
    refine ⟨⟨Or.inr ⟨_, rfl⟩, ?_, ?_⟩, fun y hy => mem_lastEntries _ y hy⟩
    · exact noRedelivery_snoc t _ h.1 (fun x he => by simp [delivered] at he)
    · intro x hx
      rcases live_snoc x t _ hx with he | ⟨hl, hd⟩
      · simp [delivered] at he
      · have hin := h.2 x hl
        by_contra hout
        rw [entries_lastEntries] at hout
        exact hd ((dropsId_trimmed x _ _).mpr ⟨hin, hout⟩)
  · simp only [limitText, limitEvents, hlen, if_false, List.append_nil]
    exact ⟨⟨hs, h.1, h.2⟩, fun y hy => hy⟩

theorem entries_limitText (s : Str) : entries (limitText s) = lastEntries (entries s) := by
  by_cases h : (entries s).length > 150
  · simp only [limitText, h, if_true]
    exact entries_lastEntries s
  · have : (entries s).length - 150 = 0 := by omega
    simp [limitText, h, lastEntries, this]

theorem terminated_limitText (s : Str) (h : Terminated s) : Terminated (limitText s) := by
  by_cases hl : (entries s).length > 150
  · simp only [limitText, hl, if_true]
    exact Or.inr ⟨_, rfl⟩
  · simpa [limitText, hl] using h

theorem mem_entries_joinNL (l : List Str) (x : Str) (hx : x ∈ l) (hnl : '\n' ∉ x)
    (ht : trimTruthy x = true) : x ∈ entries (joinNL l) := by
  have key : x ∈ splitNL (joinNL l) := by
    induction l with
    | nil => simp at hx
    | cons a rest ih =>
      cases rest with
      | nil =>
        simp only [List.mem_singleton] at hx
        subst hx
        simp [joinNL, splitNL_of_not_mem x hnl]
      | cons b rest2 =>
        simp only [joinNL]
        rw [splitNL_append_nl]
        rcases List.mem_cons.mp hx with h | h
        · subst h
          simp [splitNL_of_not_mem x hnl]
        · exact List.mem_append_right _ (ih h)
  simp [entries, key, ht]

theorem terminated_stepText (w : World) (wr : Bool) (id s : Str) (h : Terminated s) :
    Terminated (stepText w wr id s) := by
  cases ho : outcome w id <;> cases wr <;> simp only [stepText, ho, if_true, if_false,
    Bool.false_eq_true] <;> first
    | exact h
    | exact terminated_limitText _ (Or.inr ⟨s ++ id, by simp⟩)

theorem entries_stepText (w : World) (wr : Bool) (id s y : Str) (h : Terminated s)
    (hnl : '\n' ∉ id) (ht : trimTruthy id = true) (hy : y ∈ entries (stepText w wr id s)) :
    y ∈ entries s ∨ (y = id ∧ outcome w id = .sent) := by
  cases ho : outcome w id <;> cases wr <;>
    simp only [stepText, ho, if_true, if_false, Bool.false_eq_true] at hy <;> first
    | exact Or.inl hy
    | (rw [entries_limitText] at hy
       have := mem_lastEntries _ y hy
       rw [entries_append_line s id h hnl ht] at this
       simp only [List.mem_append, List.mem_singleton] at this
       rcases this with h1 | h1
       · exact Or.inl h1
       · exact Or.inr ⟨h1, rfl⟩)

theorem entries_loopText (w : World) (wr : Bool) (ids : List Str) (s y : Str)
    (h : Terminated s) (hids : ∀ x ∈ ids, '\n' ∉ x ∧ trimTruthy x = true)
    (hy : y ∈ entries (loopText w wr ids s)) :
    y ∈ entries s ∨ (y ∈ ids ∧ outcome w y = .sent) := by
  induction ids generalizing s with
  | nil => exact Or.inl hy
  | cons id rest ih =>
    have hid := hids id (by simp)
    have hstep : y ∈ entries (stepText w wr id s) →
        y ∈ entries s ∨ (y ∈ id :: rest ∧ outcome w y = .sent) := by
      intro h1
      rcases entries_stepText w wr id s y h hid.1 hid.2 h1 with h3 | ⟨h3, h4⟩
      · exact Or.inl h3
      · exact Or.inr ⟨by simp [h3], by rw [h3]; exact h4⟩
    simp only [loopText] at hy
    split at hy
    · exact hstep hy
    · rcases ih (stepText w wr id s) (terminated_stepText w wr id s h)
          (fun x hx => hids x (List.mem_cons_of_mem _ hx)) hy with h1 | ⟨h1, h2⟩
      · exact hstep h1
      · exact Or.inr ⟨List.mem_cons_of_mem _ h1, h2⟩

theorem ledgerInv_step (w : World) (id s : Str) (t : List Event) (h : LedgerInv s t)
    (hid : id ∉ entries s) (hnl : '\n' ∉ id) (ht : trimTruthy id = true) :
    LedgerInv (stepText w true id s) (t ++ stepEvents w true id s) := by
  obtain ⟨hterm, hno, hlive⟩ := h
  have h1 := ledgerInv_emit s t (.detail id true) (fun x => by simp [delivered]) ⟨hno, hlive⟩
  cases ho : outcome w id with
  | noDetail =>
    simp only [stepText, stepEvents, ho]
    have := ledgerInv_emit s t (.detail id false) (fun x => by simp [delivered]) ⟨hno, hlive⟩
    exact ⟨hterm, this.1, this.2⟩
  | threw =>
    simp only [stepText, stepEvents, ho]
    exact ⟨hterm, h1.1, h1.2⟩
  | failed =>
    simp only [stepText, stepEvents, ho]
    have h2 := ledgerInv_emit s _ (.webhook id false) (fun x => by simp [delivered]) h1
    have e : t ++ [Event.detail id true, Event.webhook id false] =
        t ++ [Event.detail id true] ++ [Event.webhook id false] := by simp
    rw [e]
    exact ⟨hterm, h2.1, h2.2⟩
  | sent =>
    simp only [stepText, stepEvents, ho, if_true]
    have hent := entries_append_line s id hterm hnl ht
    have h2 : NoRedelivery (t ++ [Event.detail id true] ++ [delivered id]) ∧
        ∀ x, Live x (t ++ [Event.detail id true] ++ [delivered id]) →
          x ∈ entries (s ++ (id ++ ['\n'])) := by
      refine ⟨noRedelivery_snoc _ _ h1.1 ?_, ?_⟩
      · intro x he hl
        have hx : id = x := by simpa [delivered] using he
        subst hx
        exact hid (h1.2 _ hl)
      · intro x hx
        rw [hent]
        rcases live_snoc x _ _ hx with he | ⟨hl, _⟩
        · have hx : id = x := by simpa [delivered] using he
          simp [hx]
        · simp [h1.2 x hl]
    have h3 := ledgerInv_emit (s ++ (id ++ ['\n'])) _ (.commit id)
      (fun x => by simp [delivered]) h2
    have hterm1 : Terminated (s ++ (id ++ ['\n'])) := Or.inr ⟨s ++ id, by simp⟩
    have h4 := limit_inv (s ++ (id ++ ['\n'])) _ hterm1 h3
    have e : t ++ ([Event.detail id true, Event.webhook id true, Event.commit id] ++
          limitEvents (s ++ (id ++ ['\n']))) =
        t ++ [Event.detail id true] ++ [delivered id] ++ [Event.commit id] ++
          limitEvents (s ++ (id ++ ['\n'])) := by simp [delivered]
    rw [e]
    exact h4.1

theorem ledgerInv_loop (w : World) (ids : List Str) (s : Str) (t : List Event)
    (h : LedgerInv s t) (hn : ids.Nodup)
    (hids : ∀ x ∈ ids, x ∉ entries s ∧ '\n' ∉ x ∧ trimTruthy x = true) :
    LedgerInv (loopText w true ids s) (t ++ loopEvents w true ids s) := by
  induction ids generalizing s t with
  | nil => simpa [loopText, loopEvents] using h
  | cons id rest ih =>
    have hid := hids id (by simp)
    have hstep := ledgerInv_step w id s t h hid.1 hid.2.1 hid.2.2
    simp only [List.nodup_cons] at hn
    simp only [loopText, loopEvents]
    split
    · simpa using hstep
    · have := ih (stepText w true id s) (t ++ stepEvents w true id s) hstep hn.2 (by
        intro x hx
        have hx2 := hids x (List.mem_cons_of_mem _ hx)
        refine ⟨?_, hx2.2⟩
        intro hmem
        rcases entries_stepText w true id s x h.1 hid.2.1 hid.2.2 hmem with h1 | ⟨h1, _⟩
        · exact hx2.1 h1
        · exact hn.1 (h1 ▸ hx))
      simpa [List.append_assoc] using this

theorem isWritable_ne_locked (f : File) (h : isWritable f = true) : f ≠ .locked := by
  intro e
  subst e
  simp [isWritable] at h

theorem ledgerInv_cycle (w : World) (m : Machine) (hs : isWritable m.disk.sent = true)
    (h : LedgerInv (fileText m.disk.sent) m.log) :
    (∃ m1, processItems w m = .error m1 ∧ NoRedelivery m1.log) ∨
      ∃ m1, processItems w m = .ok m1 ∧ isWritable m1.disk.sent = true ∧
        LedgerInv (fileText m1.disk.sent) m1.log := by
  obtain ⟨⟨fi, fs⟩, log⟩ := m
  have hs : isWritable fs = true := hs
  have h : LedgerInv (fileText fs) log := h
  by_cases hi : isWritable fi = true
  · have hp := cyclePending_spec w fi fs
    have hinv := ledgerInv_loop w (cyclePending w fi fs) (fileText fs) log h hp.1 hp.2
    rw [processItems_closed w fi fs log hi (isWritable_ne_locked fs hs), hs]
    by_cases hst : loopStops w true (cyclePending w fi fs) = true
    · rw [if_pos hst]
      exact Or.inl ⟨_, rfl, hinv.2.1⟩
    · rw [if_neg hst]
      exact Or.inr ⟨_, rfl, rfl, hinv⟩
  · obtain ⟨m1, he, hl⟩ := processItems_fail w fi fs log (Or.inl (by simpa using hi))
    exact Or.inl ⟨m1, he, by rw [hl]; exact h.2.1⟩

theorem noRedelivery_run (ws : List World) (m : Machine)
    (hs : isWritable m.disk.sent = true) (h : LedgerInv (fileText m.disk.sent) m.log) :
    NoRedelivery (finalState (runHourly ws m)).log := by
  induction ws generalizing m with
  | nil => simpa [runHourly, finalState, pure, Except.pure] using h.2.1
  | cons w rest ih =>
    rcases ledgerInv_cycle w m hs h with ⟨m1, he, hl⟩ | ⟨m1, he, hs1, h1⟩
    · simp only [runHourly, he, bind, Except.bind, finalState]
      exact hl
    · simp only [runHourly, he, bind, Except.bind]
      exact ih m1 hs1 h1

theorem loopText_eq_committedText (w : World) (ids : List Str) (s : Str)
    (hns : loopStops w true ids = false) : loopText w true ids s = committedText w ids s := by
  induction ids generalizing s with
  | nil => rfl
  | cons id rest ih =>
    obtain ⟨h1, h2⟩ := (loopStops_cons w true id rest).mp hns
    have hstep : stepText w true id s =
        if sendOk w id then limitText (s ++ (id ++ ['\n'])) else s := by
      cases ho : outcome w id with
      | sent => simp [stepText, ho, (outcome_sent_iff w id).mp ho]
      | noDetail =>
        have : sendOk w id = false := by
          cases hb : sendOk w id
          · rfl
          · rw [← outcome_sent_iff, ho] at hb; cases hb
        simp [stepText, ho, this]
      | threw =>
        have : sendOk w id = false := by
          cases hb : sendOk w id
          · rfl
          · rw [← outcome_sent_iff, ho] at hb; cases hb
        simp [stepText, ho, this]
      | failed =>
        have : sendOk w id = false := by
          cases hb : sendOk w id
          · rfl
          · rw [← outcome_sent_iff, ho] at hb; cases hb
        simp [stepText, ho, this]
    simp only [loopText, h1, if_false, Bool.false_eq_true, ih _ h2, committedText,
      List.foldl_cons, hstep]

theorem loopStops_false_of_no_throw (w : World) (ids : List Str)
    (h : ∀ x ∈ ids, ∀ acc, w.details x = some acc → (sendDiscordWebhook w x acc).isSome = true) :
    loopStops w true ids = false := by
  simp only [loopStops, List.any_eq_false]
  intro x hx
  have hne : outcome w x ≠ .threw := by
    intro ho
    simp only [outcome] at ho
    cases hd : w.details x with
    | none => simp [hd] at ho
    | some acc =>
      have hsome := h x hx acc hd
      cases hsd : sendDiscordWebhook w x acc with
      | none => simp [hsd] at hsome
      | some r => obtain ⟨e, b⟩ := r; cases b <;> simp [hd, hsd] at ho
  cases ho : outcome w x <;> simp [stops, ho] at hne ⊢

/-! ## The claims -/

/-- C2: for every text of `items.txt` and of `sent_items.txt`, `filterItems`
succeeds, leaves `sent_items.txt` as it is, and the entries of `items.txt`
afterwards are distinct, in the order of their first occurrence before, and
are exactly the entries held before that are not entries of `sent_items.txt`;
candidates `A`, `B`, `C` with ledger `B` give `A`, `C`. -/
theorem C2_filterItems_pending (a b : Str) (log : List Event) :
    ∃ c, filterItems ⟨⟨.text a, .text b⟩, log⟩ = .ok ⟨⟨.text c, .text b⟩, log⟩ ∧
      (entries c).Nodup ∧
      (entries c).Pairwise (fun x y => (entries a).indexOf x < (entries a).indexOf y) ∧
      (∀ x, x ∈ entries c ↔ x ∈ entries a ∧ x ∉ entries b) ∧
      (a = "A\nB\nC".toList → b = "B\n".toList → entries c = [idA, idC]) := by
  refine ⟨joinNL (pendingSet a b), filterItems_ok _ _ log rfl (by simp), ?_⟩
  rw [entries_joinNL_pendingSet]
  refine ⟨(pendingSet_spec a b).1, (pendingSet_spec a b).2.1, (pendingSet_spec a b).2.2, ?_⟩
  intro ha hb
  subst ha hb
  decide

/-- C6: for every text of `sent_items.txt`, `limitSentItems` succeeds and leaves
the other file alone; with at most 150 entries the entries stay as they are,
with more the entries afterwards are the last 150 of the entries before, in
their order; in both cases at most 150 entries remain. -/
theorem C6_limitSentItems_keeps_last (fi : File) (s : Str) (log : List Event) :
    ∃ s1 log1, limitSentItems ⟨⟨fi, .text s⟩, log⟩ = .ok ⟨⟨fi, .text s1⟩, log1⟩ ∧
      ((entries s).length ≤ 150 → entries s1 = entries s) ∧
      (150 < (entries s).length →
        ∃ dropped, entries s = dropped ++ entries s1 ∧ (entries s1).length = 150) ∧
      (entries s1).length ≤ 150 := by
  refine ⟨limitText s, _, limitSentItems_closed fi s log, ?_, ?_, ?_⟩
  · intro h
    have : ¬ (entries s).length > 150 := by omega
    simp [limitText, this]
  · intro h
    rw [entries_limitText]
    refine ⟨(entries s).take ((entries s).length - 150), ?_, ?_⟩
    · exact (List.take_append_drop _ _).symm
    · rw [lastEntries_length]; omega
  · rw [entries_limitText, lastEntries_length]; omega

/-- C7: `limitSentItems` is idempotent: on every state of the disk (the ledger
file absent, not accessible, read-only, or holding any text), running it twice
in a row ends exactly as running it once, with the same files. -/
theorem C7_limitSentItems_idempotent (m : Machine) :
    (limitSentItems m >>= limitSentItems) = limitSentItems m ∧
      (finalState (limitSentItems m >>= limitSentItems)).disk =
        (finalState (limitSentItems m)).disk := by
  have key : (limitSentItems m >>= limitSentItems) = limitSentItems m := by
    obtain ⟨⟨fi, fs⟩, log⟩ := m
    cases fs with
    | absent => rfl
    | locked => rfl
    | readOnly s =>
      by_cases hlen : (entries s).length > 150
      · simp [limitSentItems_readOnly, hlen, bind, Except.bind]
      · simp [limitSentItems_readOnly, hlen, bind, Except.bind]
    | text s =>
      have hlen : ¬ (entries (limitText s)).length > 150 := by
        rw [entries_limitText, lastEntries_length]; omega
      have e1 : limitText (limitText s) = limitText s := by
        generalize limitText s = u at hlen
        simp [limitText, hlen]
      have e2 : limitEvents (limitText s) = [] := by
        generalize limitText s = u at hlen
        simp [limitEvents, hlen]
      simp [limitSentItems_closed, bind, Except.bind, e1, e2]
  exact ⟨key, by rw [key]⟩

/-- C5: when the ledger text is empty or ends with a newline and `id` is a
non-blank identifier without a newline, processing `id` with a found detail
and a webhook that returned true (append of `id` and a newline, then
`limitSentItems`) leaves as entries the last 150 of the old entries followed
by `id`; from exactly 150 entries the result is the old entries without the
first one, followed by `id`, again 150 entries. -/
theorem C5_commit_then_limit (w : World) (id s : Str) (fi : File) (log : List Event)
    (hsend : sendOk w id = true)
    (hs : Terminated s) (ht : trimTruthy id = true) (hnl : '\n' ∉ id) :
    ∃ s1 log1, processItem w id ⟨⟨fi, .text s⟩, log⟩ = .ok ⟨⟨fi, .text s1⟩, log1⟩ ∧
      Event.commit id ∈ log1 ∧
      (∃ dropped, entries s ++ [id] = dropped ++ entries s1) ∧
      (entries s1).length = min 150 ((entries s).length + 1) ∧
      ((entries s).length = 150 →
        entries s1 = (entries s).tail ++ [id] ∧ (entries s1).length = 150) := by
  have ho : outcome w id = .sent := (outcome_sent_iff w id).mpr hsend
  have hst : stops w true id = false := by simp [stops, ho]
  have hrun : processItem w id ⟨⟨fi, .text s⟩, log⟩ =
      .ok ⟨⟨fi, .text (stepText w true id s)⟩, log ++ stepEvents w true id s⟩ := by
    have := processItem_closed w true id fi s log
    simpa [hst, ledgerFile] using this
  refine ⟨_, _, hrun, ?_, ?_⟩
  · exact List.mem_append_right _ ((commit_mem_stepEvents w true id s id).mpr ⟨rfl, ho, rfl⟩)
  have e : entries (stepText w true id s) = lastEntries (entries s ++ [id]) := by
    simp only [stepText, ho, if_true]
    rw [entries_limitText, entries_append_line s id hs hnl ht]
  rw [e]
  refine ⟨⟨(entries s ++ [id]).take ((entries s ++ [id]).length - 150),
    (List.take_append_drop _ _).symm⟩, ?_, ?_⟩
  · rw [lastEntries_length]; simp
  · intro h150
    refine ⟨?_, by rw [lastEntries_length]; simp [h150]⟩
    cases hl : entries s with
    | nil => rw [hl] at h150; simp at h150
    | cons a rest =>
      rw [hl] at h150
      simp only [List.length_cons] at h150
      have hlen : (a :: rest ++ [id]).length - 150 = 1 := by simp; omega
      rw [lastEntries, hlen]
      rfl

/-- C5 at a concrete input: the ledger `B`, then the commit of `A`. -/
theorem C5_commit_then_limit_witness :
    ∃ s1 log1, processItem worldOne idA ⟨⟨.absent, .text "B\n".toList⟩, []⟩ =
        .ok ⟨⟨.absent, .text s1⟩, log1⟩ ∧
      Event.commit idA ∈ log1 ∧
      (∃ dropped, entries "B\n".toList ++ [idA] = dropped ++ entries s1) ∧
      (entries s1).length = min 150 ((entries "B\n".toList).length + 1) ∧
      ((entries "B\n".toList).length = 150 →
        entries s1 = (entries "B\n".toList).tail ++ [idA] ∧ (entries s1).length = 150) :=
  C5_commit_then_limit worldOne idA "B\n".toList .absent [] (by decide)
    (Or.inr ⟨"B".toList, by decide⟩) (by decide) (by decide)

/-- C1: in a run of cycles that starts with `sent_items.txt` absent or empty,
between any two successful deliveries of one identifier a rewrite by
`limitSentItems` dropped that identifier from the ledger; in one cycle, from
any disk, no identifier is delivered twice; and no delivery is attempted in a
cycle for an identifier that is a ledger entry at its start. -/
theorem C1_no_redelivery (ws : List World) (fi fs : File)
    (h0 : fs = .absent ∨ fs = .text []) :
    (∀ x t1 t2 t3,
        (finalState (runHourly ws ⟨⟨fi, fs⟩, []⟩)).log =
          t1 ++ delivered x :: (t2 ++ delivered x :: t3) →
        ∃ before kept, Event.trimmed before kept ∈ t2 ∧ x ∈ before ∧ x ∉ kept) ∧
      (∀ (w : World) (d : Disk) (x : Str),
        (finalState (processItems w ⟨d, []⟩)).log.count (delivered x) ≤ 1) ∧
      (∀ (w : World) (f : File) (s x : Str) (b : Bool), x ∈ entries s →
        Event.webhook x b ∉ (finalState (processItems w ⟨⟨f, .text s⟩, []⟩)).log) := by
  refine ⟨?_, ?_, ?_⟩
  · have hinv : LedgerInv (fileText fs) [] := by
      refine ⟨?_, noRedelivery_nil, ?_⟩
      · rcases h0 with h | h <;> subst h <;> exact Or.inl rfl
      · rintro x ⟨t1, t2, ht, _⟩
        simp at ht
    have hs : isWritable fs = true := by rcases h0 with h | h <;> subst h <;> rfl
    intro x t1 t2 t3 ht
    obtain ⟨e, he, hd⟩ := noRedelivery_run ws ⟨⟨fi, fs⟩, []⟩ hs hinv x t1 t2 t3 ht
    cases e with
    | trimmed before kept => exact ⟨before, kept, he, hd.1, hd.2⟩
    | detail _ _ => exact absurd hd (by simp [dropsId])
    | webhook _ _ => exact absurd hd (by simp [dropsId])
    | commit _ => exact absurd hd (by simp [dropsId])
  · rintro w ⟨f1, f2⟩ x
    rcases processItems_log w f1 f2 [] with h | ⟨_, _, h⟩
    · rw [h]; simp
    · rw [h, List.nil_append]
      exact le_trans (delivered_count_loopEvents w _ _ _ x)
        (count_le_one_of_nodup _ (cyclePending_spec w f1 f2).1 x)
  · intro w f s x b hx
    rcases processItems_log w f (.text s) [] with h | ⟨_, _, h⟩
    · rw [h]; simp
    · rw [h, List.nil_append]
      intro hmem
      have hp := (webhook_mem_loopEvents_imp w _ _ _ x b hmem).1
      exact ((cyclePending_spec w f (.text s)).2 x hp).1 hx

/-- C1 at a concrete input: a first cycle delivers 151 identifiers from an
absent ledger, so that the first of them is dropped by `limitSentItems`; a
second cycle lists that identifier again and delivers it a second time. -/
theorem C1_no_redelivery_witness :
    (∀ x t1 t2 t3,
        (finalState (runHourly [worldMany, worldAgain] ⟨⟨.absent, .absent⟩, []⟩)).log =
          t1 ++ delivered x :: (t2 ++ delivered x :: t3) →
        ∃ before kept, Event.trimmed before kept ∈ t2 ∧ x ∈ before ∧ x ∉ kept) ∧
      (finalState (runHourly [worldMany, worldAgain] ⟨⟨.absent, .absent⟩, []⟩)).log.count
        (delivered [Char.ofNat 256]) = 2 :=
  ⟨(C1_no_redelivery [worldMany, worldAgain] .absent .absent (Or.inl rfl)).1, by decide!⟩

theorem isWritable_of_not_readOnly (fs : File) (hs : fs ≠ .locked)
    (hwr : ∀ s, fs ≠ .readOnly s) : isWritable fs = true := by
  cases fs with
  | absent => rfl
  | locked => exact absurd rfl hs
  | readOnly s => exact absurd rfl (hwr s)
  | text s => rfl

theorem outcome_webhook_iff (w : World) (x : Str) (h : outcome w x ≠ .threw) :
    (outcome w x = .sent ∨ outcome w x = .failed) ↔ (w.details x).isSome = true := by
  have hnd := outcome_noDetail_iff w x
  cases ho : outcome w x with
  | noDetail =>
    have := hnd.mp ho
    simp [this]
  | threw => exact absurd ho h
  | failed =>
    cases hd : (w.details x).isSome with
    | true => simp
    | false => rw [hnd.mpr hd] at ho; cases ho
  | sent =>
    cases hd : (w.details x).isSome with
    | true => simp
    | false => rw [hnd.mpr hd] at ho; cases ho

/-- C3, as stated, fails. With a read-only `sent_items.txt`, the webhook for
`A` returns true but the append of line 156 throws: `A` is not appended and
the cycle ends before `C` is processed. With a detail of `A` whose creator
name cannot be converted to a string, `sendDiscordWebhook` throws while it
builds the embed and the cycle ends before `C` is processed. -/
theorem C3_loop_stopped_counterexample :
    sendOk worldOne idA = true ∧
      processItems worldOne ⟨⟨.absent, .readOnly "B\n".toList⟩, []⟩ =
        .error ⟨⟨.text "A\nC".toList, .readOnly "B\n".toList⟩,
          [.detail idA true, .webhook idA true]⟩ ∧
      processItems worldBrokenDetail ⟨⟨.absent, .text "B\n".toList⟩, []⟩ =
        .error ⟨⟨.text "A\nC".toList, .text "B\n".toList⟩, [.detail idA true]⟩ :=
  ⟨rfl, rfl, rfl⟩

/-- C3, amended: in a cycle whose pending set was loaded, whose ledger file is
not read-only and in which `sendDiscordWebhook` throws on no pending detail,
the cycle completes; a pending identifier is committed exactly when its detail
was found and the webhook for it returned true, which is exactly when the
record holds its successful delivery; every pending identifier gets its detail
request, once and in order, whatever failed before it; the ledger text at the
end is the text at the start with, for each pending identifier in order that
was committed, the identifier and a newline appended and `limitSentItems`
applied, and nothing for the others; and on a ledger text that is empty or
newline-terminated a pending identifier is an entry at the end only if it was
committed. -/
theorem C3_commit_iff_delivered (w : World) (fi fs : File) (pending : List Str)
    (m0 : Machine)
    (hload : loadPending w ⟨⟨fi, fs⟩, []⟩ = .ok (pending, m0))
    (hwr : ∀ s, fs ≠ .readOnly s)
    (hsend : ∀ x ∈ pending, ∀ acc, w.details x = some acc →
      (sendDiscordWebhook w x acc).isSome = true) :
    ∃ m1, processItems w ⟨⟨fi, fs⟩, []⟩ = .ok m1 ∧
      (∀ x ∈ pending, Event.commit x ∈ m1.log ↔ sendOk w x = true) ∧
      (∀ x, Event.commit x ∈ m1.log ↔ Event.detail x true ∈ m1.log ∧ delivered x ∈ m1.log) ∧
      detailIds m1.log = pending ∧
      m1.disk.sent = .text (pending.foldl
        (fun t x => if sendOk w x then limitText (t ++ (x ++ ['\n'])) else t) (fileText fs)) ∧
      (Terminated (fileText fs) → ∀ x ∈ pending,
        x ∈ entries (fileText m1.disk.sent) → sendOk w x = true) := by
  obtain ⟨hi, hs, hp⟩ := loadPending_inv w fi fs [] pending m0 hload
  subst hp
  have hw : isWritable fs = true := isWritable_of_not_readOnly fs hs hwr
  have hns := loopStops_false_of_no_throw w _ hsend
  have hrun := processItems_ok_of w fi fs [] hi hs (by rw [hw]; exact hns)
  rw [hw] at hrun
  refine ⟨_, hrun, ?_, ?_, ?_, ?_, ?_⟩
  · intro x hx
    show Event.commit x ∈ [] ++ loopEvents w true (cyclePending w fi fs) (fileText fs) ↔ _
    rw [List.nil_append, commit_mem_loopEvents w true _ _ x hns, outcome_sent_iff]
    exact ⟨fun h => h.2, fun h => ⟨hx, h⟩⟩
  · intro x
    show Event.commit x ∈ [] ++ loopEvents w true (cyclePending w fi fs) (fileText fs) ↔
      Event.detail x true ∈ [] ++ loopEvents w true (cyclePending w fi fs) (fileText fs) ∧
      Event.webhook x true ∈ [] ++ loopEvents w true (cyclePending w fi fs) (fileText fs)
    rw [List.nil_append, commit_mem_loopEvents w true _ _ x hns,
      detail_mem_loopEvents w true _ _ x _ hns, webhook_mem_loopEvents w true _ _ x _ hns]
    constructor
    · rintro ⟨h1, h2⟩
      exact ⟨⟨h1, by simp [h2]⟩, h1, Or.inl ⟨h2, rfl⟩⟩
    · rintro ⟨_, h1, h2 | h2⟩
      · exact ⟨h1, h2.1⟩
      · exact absurd h2.2 (by simp)
  · show detailIds ([] ++ loopEvents w true (cyclePending w fi fs) (fileText fs)) = _
    rw [List.nil_append]
    exact detailIds_loopEvents w true _ _ hns
  · show File.text (loopText w true (cyclePending w fi fs) (fileText fs)) = _
    rw [loopText_eq_committedText w _ _ hns]
    rfl
  · intro hterm x hx hmem
    have hmem2 : x ∈ entries (loopText w true (cyclePending w fi fs) (fileText fs)) := hmem
    rcases entries_loopText w true _ _ x hterm
        (fun y hy => ((cyclePending_spec w fi fs).2 y hy).2) hmem2 with h1 | ⟨_, h2⟩
    · exact absurd h1 ((cyclePending_spec w fi fs).2 x hx).1
    · exact (outcome_sent_iff w x).mp h2

/-- C3, amended, at a concrete input: candidates `A`, `B`, `C`, ledger `B`, the
webhook accepting `A` only; the ledger ends as `B`, `A`. -/
theorem C3_commit_iff_delivered_witness :
    (∃ m1, processItems worldOne ⟨⟨.absent, .text "B\n".toList⟩, []⟩ = .ok m1 ∧
      (∀ x ∈ [idA, idC], Event.commit x ∈ m1.log ↔ sendOk worldOne x = true) ∧
      (∀ x, Event.commit x ∈ m1.log ↔ Event.detail x true ∈ m1.log ∧ delivered x ∈ m1.log) ∧
      detailIds m1.log = [idA, idC] ∧
      m1.disk.sent = .text ([idA, idC].foldl
        (fun t x => if sendOk worldOne x then limitText (t ++ (x ++ ['\n'])) else t)
        (fileText (.text "B\n".toList))) ∧
      (Terminated (fileText (.text "B\n".toList)) → ∀ x ∈ [idA, idC],
        x ∈ entries (fileText m1.disk.sent) → sendOk worldOne x = true)) ∧
      [idA, idC].foldl
        (fun t x => if sendOk worldOne x then limitText (t ++ (x ++ ['\n'])) else t)
        (fileText (.text "B\n".toList)) = "B\nA\n".toList :=
  ⟨C3_commit_iff_delivered worldOne .absent (.text "B\n".toList) [idA, idC]
    ⟨⟨.text "A\nC".toList, .text "B\n".toList⟩, []⟩ rfl (by simp)
    (by intro x _ acc h; cases h; rfl), by decide⟩

/-- C4, as stated, fails: with `items.txt` holding `A`, an empty ledger and a
failing catalog listing, the cycle requests the detail of `A`, delivers it and
commits it to `sent_items.txt`. -/
theorem C4_stale_items_counterexample :
    worldListingDown.listing = none ∧
      processItems worldListingDown ⟨⟨.text "A".toList, .text []⟩, []⟩ =
        .ok ⟨⟨.text [], .text "A\n".toList⟩,
          [.detail idA true, .webhook idA true, .commit idA]⟩ :=
  ⟨rfl, rfl⟩

/-- C4, amended: when the catalog listing fails in a cycle that starts with
`items.txt` absent or a writable file without a non-blank line and with
`sent_items.txt` absent or readable, the cycle completes without any detail
request, delivery or commit, and `sent_items.txt` is as it was (an absent one
is created empty). -/
theorem C4_failed_listing_no_candidates (w : World) (fi fs : File)
    (hw : w.listing = none) (hi : fi ≠ .locked) (hro : ∀ a, fi ≠ .readOnly a)
    (hblank : entries (fileText fi) = []) (hs : fs ≠ .locked) :
    processItems w ⟨⟨fi, fs⟩, []⟩ = .ok ⟨⟨.text [], created fs⟩, []⟩ := by
  have hiw : isWritable fi = true := isWritable_of_not_readOnly fi hi hro
  have hf : fetchedItems w fi = fi := by
    cases fi <;> simp [fetchedItems, hw]
  have hp : cyclePending w fi fs = [] := by
    simp [cyclePending, hf, pendingSet, hblank, newSet_nil]
  rw [processItems_closed w fi fs [] hiw hs, hp, created_eq_ledgerFile fs hs]
  rfl

/-- C4, amended, at a concrete input: a blank `items.txt` and the ledger `B`. -/
theorem C4_failed_listing_no_candidates_witness :
    processItems worldListingDown ⟨⟨.text " \n".toList, .text "B\n".toList⟩, []⟩ =
      .ok ⟨⟨.text [], created (.text "B\n".toList)⟩, []⟩ ∧
      created (.text "B\n".toList) = .text "B\n".toList :=
  ⟨C4_failed_listing_no_candidates worldListingDown (.text " \n".toList)
    (.text "B\n".toList) rfl (by decide) (by simp) (by decide) (by decide), rfl⟩

/-- C9, as stated, fails: on a ledger file that exists but cannot be read,
`readIdsFromFile` throws instead of returning the empty set, and the throw
leaves `processItems`. -/
theorem C9_unreadable_counterexample :
    readIdsFromFile .sentItemsFilePath ⟨⟨.absent, .locked⟩, []⟩ =
        .error ⟨⟨.absent, .locked⟩, []⟩ ∧
      processItems worldOne ⟨⟨.absent, .locked⟩, []⟩ =
        .error ⟨⟨.text "A\nB\nC".toList, .locked⟩, []⟩ :=
  ⟨rfl, rfl⟩

/-- C9, amended: on an absent file `readIdsFromFile` creates the file empty
and returns the empty set; on a file that exists but cannot be read it throws,
and a throw on the ledger file leaves `processItems` before any request for
details or delivery is made. -/
theorem C9_readIdsFromFile_load (p : Path) (w : World) (fi fs : File) (log : List Event) :
    (readIdsFromFile .sentItemsFilePath ⟨⟨fi, .absent⟩, log⟩ =
        .ok ([], ⟨⟨fi, .text []⟩, log⟩)) ∧
      (readIdsFromFile .itemsFilePath ⟨⟨.absent, fs⟩, log⟩ =
        .ok ([], ⟨⟨.text [], fs⟩, log⟩)) ∧
      (∀ d : Disk, d.get p = .locked → readIdsFromFile p ⟨d, log⟩ = .error ⟨d, log⟩) ∧
      (∃ m, processItems w ⟨⟨fi, .locked⟩, log⟩ = .error m ∧ m.log = log) := by
  refine ⟨rfl, rfl, ?_, processItems_fail w fi .locked log (Or.inr rfl)⟩
  intro d hd
  simp [readIdsFromFile, existsSync, readFileSync, hd, bind, Except.bind, pure, Except.pure]

/-- C8, as stated, fails: `C` was pending in the first cycle and its delivery
failed; the second cycle lists `C` again, but the detail request for `C`
fails there and no delivery for `C` is attempted. -/
theorem C8_no_retry_counterexample :
    processItems worldOne ⟨⟨.absent, .text "B\n".toList⟩, []⟩ =
        .ok ⟨⟨.text [], .text "B\nA\n".toList⟩,
          [.detail idA true, .webhook idA true, .commit idA,
            .detail idC true, .webhook idC false]⟩ ∧
      worldDetailDown.listing = some [idA, idB, idC] ∧
      processItems worldDetailDown ⟨⟨.text [], .text "B\nA\n".toList⟩, []⟩ =
        .ok ⟨⟨.text [], .text "B\nA\n".toList⟩, [.detail idC false]⟩ :=
  ⟨rfl, rfl, rfl⟩

/-- C8, amended: with the ledger text empty or newline-terminated at the start,
if `x` was pending in the first cycle and its delivery failed, and the second
cycle lists `x` again, then `x` is pending in the second cycle; the second
cycle completes when `sendDiscordWebhook` throws on none of its pending
details; and whenever it completes, the detail of `x` is requested again in
it, and delivery for `x` is attempted again exactly when that request finds a
detail. -/
theorem C8_retry_next_cycle (w1 w2 : World) (fi : File) (s x : Str)
    (pending1 ids2 : List Str) (m0 m1 : Machine) (hterm : Terminated s)
    (hload : loadPending w1 ⟨⟨fi, .text s⟩, []⟩ = .ok (pending1, m0)) (hx : x ∈ pending1)
    (hrun : processItems w1 ⟨⟨fi, .text s⟩, []⟩ = .ok m1)
    (hfail : Event.webhook x false ∈ m1.log)
    (hlist : w2.listing = some ids2) (hx2 : x ∈ ids2) :
    ∃ pending2 m2, loadPending w2 ⟨m1.disk, []⟩ = .ok (pending2, m2) ∧ x ∈ pending2 ∧
      ((∀ y ∈ pending2, ∀ acc, w2.details y = some acc →
          (sendDiscordWebhook w2 y acc).isSome = true) →
        ∃ m3, processItems w2 ⟨m1.disk, []⟩ = .ok m3) ∧
      (∀ m3, processItems w2 ⟨m1.disk, []⟩ = .ok m3 →
        (∃ b, Event.detail x b ∈ m3.log) ∧
        ((∃ b, Event.webhook x b ∈ m3.log) ↔ (w2.details x).isSome = true)) := by
  obtain ⟨hi, _, hp⟩ := loadPending_inv w1 fi (.text s) [] pending1 m0 hload
  subst hp
  obtain ⟨_, hm1⟩ := processItems_ok_inv w1 fi (.text s) [] m1 hi (by simp) hrun
  subst hm1
  simp only [isWritable, fileText, ledgerFile, if_true, List.nil_append] at hfail ⊢
  have hfail2 : Event.webhook x false ∈
      loopEvents w1 true (cyclePending w1 fi (.text s)) s := hfail
  have hfailed : outcome w1 x = .failed := by
    rcases (webhook_mem_loopEvents_imp w1 true _ _ x false hfail2).2 with h | h
    · exact absurd h.2 (by simp)
    · exact h.1
  have hpx := (cyclePending_spec w1 fi (.text s)).2 x hx
  have hout : x ∉ entries (loopText w1 true (cyclePending w1 fi (.text s)) s) := by
    intro hmem
    rcases entries_loopText w1 true _ _ x hterm
        (fun y hy => ((cyclePending_spec w1 fi (.text s)).2 y hy).2) hmem with h1 | ⟨_, h3⟩
    · exact hpx.1 h1
    · rw [hfailed] at h3; cases h3
  generalize loopText w1 true (cyclePending w1 fi (.text s)) s = ledger at hout ⊢
  have hin : x ∈ cyclePending w2 (.text []) (.text ledger) := by
    simp only [cyclePending, fetchedItems, hlist, fileText]
    exact ((pendingSet_spec _ _).2.2 x).mpr
      ⟨mem_entries_joinNL ids2 x hx2 hpx.2.1 hpx.2.2, hout⟩
  refine ⟨_, _, loadPending_ok w2 (.text []) (.text ledger) [] rfl (by simp), hin, ?_, ?_⟩
  · intro hno
    exact ⟨_, processItems_ok_of w2 (.text []) (.text ledger) [] rfl (by simp)
      (loopStops_false_of_no_throw w2 _ hno)⟩
  · intro m3 hm3
    obtain ⟨hns, hm⟩ := processItems_ok_inv w2 (.text []) (.text ledger) [] m3 rfl (by simp) hm3
    have hns2 : loopStops w2 true (cyclePending w2 (.text []) (.text ledger)) = false := hns
    have hlog : m3.log = loopEvents w2 true (cyclePending w2 (.text []) (.text ledger)) ledger := by
      rw [hm]; rfl
    have hxs := mem_of_loopStops_false w2 true _ x hns2 hin
    rw [hlog]
    constructor
    · rw [detail_mem_iff, detailIds_loopEvents w2 true _ _ hns2]
      exact hin
    · rw [← outcome_webhook_iff w2 x (stops_false_threw w2 true x hxs)]
      constructor
      · rintro ⟨b, hb⟩
        rcases ((webhook_mem_loopEvents w2 true _ _ x b hns2).mp hb).2 with h | h
        · exact Or.inl h.1
        · exact Or.inr h.1
      · rintro (h | h)
        · exact ⟨true, (webhook_mem_loopEvents w2 true _ _ x true hns2).mpr
            ⟨hin, Or.inl ⟨h, rfl⟩⟩⟩
        · exact ⟨false, (webhook_mem_loopEvents w2 true _ _ x false hns2).mpr
            ⟨hin, Or.inr ⟨h, rfl⟩⟩⟩

/-- C8, amended, at the scenario of the claim: candidates `A`, `B`, `C`, ledger
`B`, pending `A`, `C`; `A` is delivered, `C` fails, the ledger becomes `B`,
`A`; the next cycle with the same candidates has `C` alone pending. -/
theorem C8_retry_next_cycle_witness :
    (∃ m0, loadPending worldOne ⟨⟨.absent, .text "B\n".toList⟩, []⟩ = .ok ([idA, idC], m0)) ∧
      entries "B\nA\n".toList = [idB, idA] ∧
      (∃ m2, loadPending worldOne ⟨⟨.text [], .text "B\nA\n".toList⟩, []⟩ = .ok ([idC], m2)) ∧
      ∃ pending2 m2,
        loadPending worldOne ⟨⟨.text [], .text "B\nA\n".toList⟩, []⟩ = .ok (pending2, m2) ∧
        idC ∈ pending2 ∧
        ((∀ y ∈ pending2, ∀ acc, worldOne.details y = some acc →
            (sendDiscordWebhook worldOne y acc).isSome = true) →
          ∃ m3, processItems worldOne ⟨⟨.text [], .text "B\nA\n".toList⟩, []⟩ = .ok m3) ∧
        (∀ m3, processItems worldOne ⟨⟨.text [], .text "B\nA\n".toList⟩, []⟩ = .ok m3 →
          (∃ b, Event.detail idC b ∈ m3.log) ∧
          ((∃ b, Event.webhook idC b ∈ m3.log) ↔ (worldOne.details idC).isSome = true)) :=
  ⟨⟨_, rfl⟩, by decide, ⟨_, rfl⟩,
    C8_retry_next_cycle worldOne worldOne .absent "B\n".toList idC [idA, idC] [idA, idB, idC]
      ⟨⟨.text "A\nC".toList, .text "B\n".toList⟩, []⟩
      ⟨⟨.text [], .text "B\nA\n".toList⟩,
        [.detail idA true, .webhook idA true, .commit idA,
          .detail idC true, .webhook idC false]⟩
      (Or.inr ⟨"B".toList, by decide⟩) rfl (by decide) rfl (by decide) rfl (by decide)⟩

theorem sendDiscordWebhook_fields (w : World) (id : Str) (acc : Accessory) (embed : Embed)
    (ok : Bool) (h : sendDiscordWebhook w id acc = some (embed, ok)) :
    ∃ p n t, priceLabel acc = some p ∧ acc.creatorName.render = some n ∧
      acc.creatorTargetId.render = some t ∧
      embed.fields =
        [ { name := "Price".toList, value := p, inline := true },
          { name := "Creator".toList,
            value := "[".toList ++ n ++ "](".toList ++
              (if acc.creatorType = .str "User".toList then
                "https://www.roblox.com/users/".toList ++ t ++ "/profile".toList
              else "https://www.roblox.com/groups/".toList ++ t) ++ ")".toList,
            inline := true } ] := by
  unfold sendDiscordWebhook at h
  cases hp : priceLabel acc with
  | none => simp [hp] at h
  | some p =>
    cases hu : assetUrl acc with
    | none => simp [hp, hu] at h
    | some u =>
      cases ht : acc.creatorTargetId.render with
      | none =>
        exfalso
        by_cases hc : acc.creatorType = .str "User".toList <;>
          simp [hp, hu, creatorUrl, ht, hc] at h
      | some t =>
        cases hn : acc.creatorName.render with
        | none =>
          exfalso
          by_cases hc : acc.creatorType = .str "User".toList <;>
            simp [hp, hu, creatorUrl, ht, hn, hc] at h
        | some n =>
          refine ⟨p, n, t, rfl, rfl, rfl, ?_⟩
          by_cases hc : acc.creatorType = .str "User".toList
          · simp only [hp, hu, creatorUrl, ht, hn, hc, if_true, Option.map_some', Option.bind_eq_bind,
              Option.some_bind, Option.pure_def, Option.some.injEq, Prod.mk.injEq] at h
            rw [← h.1, if_pos hc]
          · simp only [hp, hu, creatorUrl, ht, hn, hc, if_false, Option.map_some', Option.bind_eq_bind,
              Option.some_bind, Option.pure_def, Option.some.injEq, Prod.mk.injEq] at h
            rw [← h.1, if_neg hc]

theorem group_link_ne_user_link (n t : Str) :
    "[".toList ++ n ++ "](https://www.roblox.com/groups/".toList ++ t ++ ")".toList ≠
      "[".toList ++ n ++ "](https://www.roblox.com/users/".toList ++ t ++ "/profile)".toList := by
  intro h
  simp only [List.append_assoc] at h
  have h1 := List.append_cancel_left (List.append_cancel_left h)
  have h2 := congrArg (List.take 26) h1
  have e1 : List.take 26 ("](https://www.roblox.com/groups/".toList ++ (t ++ ")".toList)) =
      "](https://www.roblox.com/g".toList := rfl
  have e2 : List.take 26 ("](https://www.roblox.com/users/".toList ++ (t ++ "/profile)".toList)) =
      "](https://www.roblox.com/u".toList := rfl
  rw [e1, e2] at h2
  exact absurd h2 (by decide)

/-- C10: whenever `sendDiscordWebhook` builds an embed for a detail, that embed
has exactly one Creator field and its value is the markdown link of the
creator name: to the user-profile path of the creator target id when
creatorType is the string User, and to its group path otherwise. So for
creatorType Group the link targets the group path, and the Creator field is
the user-profile link exactly when creatorType is User. -/
theorem C10_creator_link (w : World) (id : Str) (acc : Accessory) (embed : Embed) (ok : Bool)
    (h : sendDiscordWebhook w id acc = some (embed, ok)) :
    ∃ n t, acc.creatorName.render = some n ∧ acc.creatorTargetId.render = some t ∧
      (acc.creatorType = .str "User".toList →
        (embed.fields.filter (fun f => decide (f.name = "Creator".toList))).map
            (fun f => f.value) =
          ["[".toList ++ n ++ "](https://www.roblox.com/users/".toList ++ t ++
            "/profile)".toList]) ∧
      (acc.creatorType ≠ .str "User".toList →
        (embed.fields.filter (fun f => decide (f.name = "Creator".toList))).map
            (fun f => f.value) =
          ["[".toList ++ n ++ "](https://www.roblox.com/groups/".toList ++ t ++
            ")".toList]) ∧
      (acc.creatorType = .str "Group".toList →
        (embed.fields.filter (fun f => decide (f.name = "Creator".toList))).map
            (fun f => f.value) =
          ["[".toList ++ n ++ "](https://www.roblox.com/groups/".toList ++ t ++
            ")".toList]) ∧
      ((embed.fields.filter (fun f => decide (f.name = "Creator".toList))).map
            (fun f => f.value) =
          ["[".toList ++ n ++ "](https://www.roblox.com/users/".toList ++ t ++
            "/profile)".toList] ↔
        acc.creatorType = .str "User".toList) := by
  obtain ⟨p, n, t, _, hn, ht, hf⟩ := sendDiscordWebhook_fields w id acc embed ok h
  have hne : ¬ ("Price".toList = "Creator".toList) := by decide
  have eu : "](https://www.roblox.com/users/".toList =
      "](".toList ++ "https://www.roblox.com/users/".toList := by decide
  have eg : "](https://www.roblox.com/groups/".toList =
      "](".toList ++ "https://www.roblox.com/groups/".toList := by decide
  have ep : "/profile)".toList = "/profile".toList ++ ")".toList := by decide
  have huser : acc.creatorType = .str "User".toList →
      (embed.fields.filter (fun f => decide (f.name = "Creator".toList))).map
          (fun f => f.value) =
        ["[".toList ++ n ++ "](https://www.roblox.com/users/".toList ++ t ++
          "/profile)".toList] := by
    intro hc
    rw [hf]
    simp only [List.filter_cons, hne, decide_False, decide_True, if_true, List.filter_nil,
      List.map_cons, List.map_nil, hc, eu, ep, List.append_assoc, Bool.false_eq_true, if_false]
  have hgroup : acc.creatorType ≠ .str "User".toList →
      (embed.fields.filter (fun f => decide (f.name = "Creator".toList))).map
          (fun f => f.value) =
        ["[".toList ++ n ++ "](https://www.roblox.com/groups/".toList ++ t ++
          ")".toList] := by
    intro hc
    rw [hf]
    simp only [List.filter_cons, hne, decide_False, decide_True, if_true, List.filter_nil,
      List.map_cons, List.map_nil, hc, eg, List.append_assoc, Bool.false_eq_true, if_false]
  refine ⟨n, t, hn, ht, huser, hgroup, ?_, ?_⟩
  · intro hc
    exact hgroup (by rw [hc]; simp)
  · constructor
    · intro hval
      by_contra hc
      rw [hgroup hc] at hval
      exact group_link_ne_user_link n t (List.singleton_inj.mp hval)
    · exact huser

/-- C10 at a concrete input: the embed built for a group-created accessory
links the creator name to the group path. -/
theorem C10_creator_link_witness :
    ∃ embed ok, sendDiscordWebhook worldOne idA groupDetail = some (embed, ok) ∧
      embed.fields.map (fun f => f.value) =
        ["<:robux:1270902229552992286>5".toList,
          "[Ann](https://www.roblox.com/groups/7)".toList] ∧
      ∃ n t, groupDetail.creatorName.render = some n ∧
        groupDetail.creatorTargetId.render = some t ∧
        (groupDetail.creatorType = .str "User".toList →
          (embed.fields.filter (fun f => decide (f.name = "Creator".toList))).map
              (fun f => f.value) =
            ["[".toList ++ n ++ "](https://www.roblox.com/users/".toList ++ t ++
              "/profile)".toList]) ∧
        (groupDetail.creatorType ≠ .str "User".toList →
          (embed.fields.filter (fun f => decide (f.name = "Creator".toList))).map
              (fun f => f.value) =
            ["[".toList ++ n ++ "](https://www.roblox.com/groups/".toList ++ t ++
              ")".toList]) ∧
        (groupDetail.creatorType = .str "Group".toList →
          (embed.fields.filter (fun f => decide (f.name = "Creator".toList))).map
              (fun f => f.value) =
            ["[".toList ++ n ++ "](https://www.roblox.com/groups/".toList ++ t ++
              ")".toList]) ∧
        ((embed.fields.filter (fun f => decide (f.name = "Creator".toList))).map
              (fun f => f.value) =
            ["[".toList ++ n ++ "](https://www.roblox.com/users/".toList ++ t ++
              "/profile)".toList] ↔
          groupDetail.creatorType = .str "User".toList) :=
  ⟨_, _, rfl, rfl, C10_creator_link worldOne idA groupDetail _ _ rfl⟩

end UgcTracker
